import Mathlib

/-!
# The `lift` package: type enumeration symbols, wrapping, and the type-indexed map

A shallow embedding of `lift.go`.  Go's generic functions take their type
parameters as explicit arguments of type `GoType`; Go values whose type is only
known at run time are elements of `Val`; an operation that can panic returns
`Except Fault _`.  A Go function that mutates its receiver returns the new state.
-/

namespace Lift

/-! ## Go types -/

/-- Predeclared basic types.  `byte` and `rune` are aliases and have no constructor of
their own: see `GoType.byte` and `GoType.rune`. -/
inductive Basic
  | bool | int | int8 | int16 | int32 | int64
  | uint | uint8 | uint16 | uint32 | uint64 | uintptr
  | float32 | float64 | complex64 | complex128 | string
  deriving DecidableEq, Repr

/-- Go types up to type identity: two Go types are identical exactly when their codes
are equal.  `tnil`/`tcons` build the component lists of struct, parameter and result
lists and are not types on their own.  A method is written as one string standing for
its name and signature; an interface type lists its methods in a fixed (sorted) order.
A defined type `named` records its declaration: name, underlying type, the methods
declared with a value receiver and those declared with a pointer receiver.
`enum t` and `wrapped t` are the instantiations `lift.enum[T]` and `lift.wrapped[T]`. -/
inductive GoType
  | basic (b : Basic)
  | tnil
  | tcons (name : String) (head tail : GoType)
  | struct (fields : GoType)
  | pointer (elem : GoType)
  | slice (elem : GoType)
  | array (len : Nat) (elem : GoType)
  | func (params results : GoType)
  | iface (methods : List String)
  | named (name : String) (underlying : GoType) (methods ptrMethods : List String)
  | enum (t : GoType)
  | wrapped (t : GoType)
  deriving DecidableEq, Repr

namespace GoType

/-- The type `bool`. -/
abbrev bool : GoType := basic Basic.bool
/-- The type `int`. -/
abbrev int : GoType := basic Basic.int
/-- The type `int32`. -/
abbrev int32 : GoType := basic Basic.int32
/-- The type `uint`. -/
abbrev uint : GoType := basic Basic.uint
/-- The type `uint8`. -/
abbrev uint8 : GoType := basic Basic.uint8
/-- The type `float32`. -/
abbrev float32 : GoType := basic Basic.float32
/-- The type `float64`. -/
abbrev float64 : GoType := basic Basic.float64
/-- The type `string`. -/
abbrev string : GoType := basic Basic.string
/-- The alias `rune = int32`. -/
abbrev rune : GoType := int32
/-- The alias `byte = uint8`. -/
abbrev byte : GoType := uint8
/-- The alias `any = interface{}`. -/
abbrev any : GoType := iface []
/-- The empty struct type. -/
abbrev emptyStruct : GoType := struct tnil
/-- The predeclared interface type `error`. -/
abbrev error : GoType := named "error" (iface ["Error"]) [] []
/-- The methods of `lift.Sym`; both are unexported by package lift. -/
abbrev symMethods : List String := ["lift.enum", "lift.exfiltrate"]
/-- The interface type `lift.Sym`. -/
abbrev Sym : GoType := named "lift.Sym" (iface symMethods) [] []
/-- The defined type `lift.Empty`, declared as an empty struct. -/
abbrev Empty : GoType := named "lift.Empty" emptyStruct [] []
/-- The function type `func(SRC) (DST, error)`. -/
abbrev conv (src dst : GoType) : GoType :=
  func (tcons "" src tnil) (tcons "" dst (tcons "" error tnil))

/-- Whether a type is an interface type (its underlying type is an interface). -/
def isInterface : GoType → Bool
  | iface _ => true
  | named _ u _ _ => isInterface u
  | _ => false

/-- The method set of a type. -/
def methodSet : GoType → List String
  | iface ms => ms
  | named _ u ms _ => ms ++ (if isInterface u then methodSet u else [])
  | pointer (named _ u ms pms) => if isInterface u then [] else ms ++ pms
  | enum _ => symMethods
  | wrapped _ => symMethods
  | _ => []

/-- Whether a type `d` implements the interface type `c`: every method of `c` is in the
method set of `d`. -/
def implements (d c : GoType) : Bool :=
  (methodSet c).all (fun m => decide (m ∈ methodSet d))

/-- Whether a dynamic type `d` satisfies the asserted type `c` in `x.(c)`: for an
interface type `c`, `d` implements `c`; otherwise `d` is identical to `c`. -/
def satisfies (d c : GoType) : Bool :=
  if isInterface c then implements d c else decide (d = c)

/-- Whether values of the type can be compared with `==` without a compile-time error. -/
def comparable : GoType → Bool
  | basic _ => true
  | tnil => true
  | tcons _ h t => comparable h && comparable t
  | struct fs => comparable fs
  | pointer _ => true
  | slice _ => false
  | array _ e => comparable e
  | func _ _ => false
  | iface _ => true
  | named _ u _ _ => comparable u
  | enum _ => true
  | wrapped t => comparable t

end GoType

/-! ## Go values -/

/-- Run-time values.  `int` serves every integer type, `float` holds the bit pattern of
a floating-point number, `ref` is a non-nil pointer, function, slice, map or channel
(by identity), `unit`/`cons` build struct and array values field by field, `nil` is the
nil value of pointer, function, slice, map, channel and interface types, and `box d v`
is a non-nil interface value of dynamic type `d` holding `v`. -/
inductive Val
  | bool (b : Bool)
  | int (n : Int)
  | float (bits : Nat)
  | str (s : String)
  | nil
  | ref (addr : Nat)
  | unit
  | cons (head tail : Val)
  | box (dyn : GoType) (v : Val)
  deriving DecidableEq, Repr

/-- An array value of `n` equal elements. -/
def Val.replicate (v : Val) : Nat → Val
  | 0 => Val.unit
  | n + 1 => Val.cons v (Val.replicate v n)

/-- The zero value of a type. -/
def zero : GoType → Val
  | .basic .bool => .bool false
  | .basic .string => .str ""
  | .basic .float32 => .float 0
  | .basic .float64 => .float 0
  | .basic .complex64 => .cons (.float 0) (.cons (.float 0) .unit)
  | .basic .complex128 => .cons (.float 0) (.cons (.float 0) .unit)
  | .basic _ => .int 0
  | .tnil => .unit
  | .tcons _ h t => .cons (zero h) (zero t)
  | .struct fs => zero fs
  | .pointer _ => .nil
  | .slice _ => .nil
  | .array n e => (zero e).replicate n
  | .func _ _ => .nil
  | .iface _ => .nil
  | .named _ u _ _ => zero u
  | .enum _ => .unit
  | .wrapped t => .cons (zero t) .unit

/-- The conversion `any(x)` of a value `x` of static type `t`: an interface value keeps
its dynamic type (and nil stays nil), a value of a concrete type is boxed with `t`. -/
def toAny (t : GoType) (x : Val) : Val :=
  if t.isInterface then x else Val.box t x

/-- The type assertion `x.(c)` on an interface value `x`, in its two-result form: the
asserted value and whether the assertion holds.  A nil interface satisfies no type. -/
def typeAssert (c : GoType) (x : Val) : Val × Bool :=
  match x with
  | Val.box d p =>
    if GoType.satisfies d c then
      (if c.isInterface then Val.box d p else p, true)
    else (zero c, false)
  | _ => (zero c, false)

/-- Run-time faults (panics). -/
inductive Fault
  | nilDeref
  | uncomparable
  | nilMap
  | mustUnwrap (want got : GoType)
  | mustUnwrapAs (want got : GoType)
  | interfaceConversion
  | divideByZero
  deriving DecidableEq, Repr

/-- Whether a computation ended in a fault. -/
def faults {α : Type} : Except Fault α → Bool
  | .error _ => true
  | .ok _ => false

/-- Go's `==` on two values of one comparable type, field by field; comparing interface
values of one dynamic type that is not comparable panics.  Floating-point values are
compared by their bits. -/
def valEq : Val → Val → Except Fault Bool
  | .box d p, .box e q =>
    if d = e then (if d.comparable then valEq p q else .error Fault.uncomparable)
    else .ok false
  | .cons h t, .cons k u =>
    match valEq h k with
    | .ok true => valEq t u
    | r => r
  | x, y => .ok (decide (x = y))

/-! ## Sym -/

/-- A value of the interface type `lift.Sym`: nil, or a value of one of the two types
of package lift that implement it, `enum[T]` (a bare type enumeration symbol) and
`wrapped[T]` (a symbol carrying a payload `t` of static type `T`). -/
inductive Sym
  | nil
  | ofEnum (t : GoType)
  | ofWrapped (t : GoType) (v : Val)
  deriving DecidableEq, Repr

/-- Go's `==` on two `Sym` interface values: equal dynamic types and equal values. -/
def Sym.goEq : Sym → Sym → Except Fault Bool
  | .nil, .nil => .ok true
  | .ofEnum a, .ofEnum b => .ok (decide (a = b))
  | .ofWrapped a x, .ofWrapped b y =>
    if a = b then (if a.comparable then valEq x y else .error Fault.uncomparable)
    else .ok false
  | _, _ => .ok false

/-- The method `enum`: `enum[T].enum` returns the receiver, `wrapped[T].enum` returns
`enum[T]{}`; calling it on a nil `Sym` is a nil dereference. -/
def Sym.enum : Sym → Except Fault Sym
  | .nil => .error Fault.nilDeref
  | .ofEnum t => .ok (.ofEnum t)
  | .ofWrapped t _ => .ok (.ofEnum t)

/-- The method `exfiltrate`: `enum[T].exfiltrate` returns `any(e)`,
`wrapped[T].exfiltrate` returns `any(w.t)`. -/
def Sym.exfiltrate : Sym → Except Fault Val
  | .nil => .error Fault.nilDeref
  | .ofEnum t => .ok (toAny (.enum t) Val.unit)
  | .ofWrapped t v => .ok (toAny t v)

/-- The type assertion `sym.(wrapped[T])`: it holds when the dynamic type of `sym` is
exactly `wrapped[T]`, and yields the wrapped struct's field `t`. -/
def Sym.assertWrapped (t : GoType) : Sym → Option Val
  | .ofWrapped u v => if u = t then some v else none
  | _ => none

/-- The bare symbol a valid `Sym` stands for as a map key: what `sym.enum()` returns
when `sym` is not nil. -/
def Sym.tag : Sym → Sym
  | .nil => .nil
  | .ofEnum t => .ofEnum t
  | .ofWrapped t _ => .ofEnum t

/-- A `Sym` as a run-time value of an interface type (`lift.Sym` or `any`). -/
def Sym.toVal : Sym → Val
  | .nil => Val.nil
  | .ofEnum t => Val.box (.enum t) Val.unit
  | .ofWrapped t v => Val.box (.wrapped t) (Val.cons v Val.unit)

/-- Source `EnumIs`: `enum[T]{} == sym.enum()`. -/
def EnumIs (t : GoType) (sym : Sym) : Except Fault Bool := do
  let e ← sym.enum
  Sym.goEq (.ofEnum t) e

/-- Source `Any`: the type enumeration symbol of `interface{}`. -/
def Any : Sym := .ofEnum GoType.any

/-- Source `T`: the `T`-flavored type enumeration symbol `enum[T]{}`. -/
def T (t : GoType) : Sym := .ofEnum t

/-- Source `TypeOf`: the symbol of the static type of the (ignored) argument. -/
def TypeOf (t : GoType) (_x : Val) : Sym := .ofEnum t

/-- Source `Wrap`: `wrapped[T]{t: t}`. -/
def Wrap (t : GoType) (v : Val) : Sym := .ofWrapped t v

/-- Source `Unwrap`: the payload and `true` when `sym.(wrapped[T])` holds, the zero
value of `T` and `false` otherwise. -/
def Unwrap (t : GoType) (sym : Sym) : Val × Bool :=
  match sym.assertWrapped t with
  | some v => (v, true)
  | none => (zero t, false)

/-- Source `UnwrapAs`: `sym.exfiltrate().(T)`. -/
def UnwrapAs (t : GoType) (sym : Sym) : Except Fault (Val × Bool) := do
  let x ← sym.exfiltrate
  pure (typeAssert t x)

/-- Source `MustUnwrap`: the payload when `sym.(wrapped[T])` holds; otherwise it
evaluates `sym.enum()` for the message and panics. -/
def MustUnwrap (t : GoType) (sym : Sym) : Except Fault Val :=
  match sym.assertWrapped t with
  | some v => .ok v
  | none =>
    match sym.enum with
    | .ok (.ofEnum got) => .error (Fault.mustUnwrap (.enum t) (.enum got))
    | _ => .error Fault.nilDeref

/-- Source `MustUnwrapAs`: the asserted value when `sym.exfiltrate().(T)` holds;
otherwise it evaluates `sym.enum()` for the message and panics. -/
def MustUnwrapAs (t : GoType) (sym : Sym) : Except Fault Val := do
  let x ← sym.exfiltrate
  match typeAssert t x with
  | (v, true) => pure v
  | (_, false) =>
    match sym.enum with
    | .ok (.ofEnum got) => .error (Fault.mustUnwrapAs (.enum t) (.enum got))
    | _ => .error Fault.nilDeref

/-! ## Go maps keyed by `Sym` -/

/-- The state of a non-nil Go map `map[Sym]V`: an association list without duplicate
keys, whose order is the order in which a `range` loop visits the entries.  Keys are
compared as interface values; every key the package stores is nil or a bare `enum[T]{}`,
for which this is equality of the type. -/
abbrev GoMap (V : Type) : Type := AList (fun _ : Sym => V)

/-! ## Map -/

/-- Source `Map[V]`: a struct holding the map `defs`; `none` is the nil map of the zero
value `Map[V]{}`.  The zero value of the Go type `V` is `default`. -/
structure Map (V : Type) where
  defs : Option (GoMap V)

/-- Source `Entry[V]`. -/
structure Entry (V : Type) where
  k : Sym
  v : V

section Map
variable {V : Type}

/-- The two-result index expression `v, ok = m.defs[k]`; a nil map holds nothing. -/
def Map.index [Inhabited V] (m : Map V) (k : Sym) : V × Bool :=
  match m.defs with
  | none => (default, false)
  | some g =>
    match g.lookup k with
    | some v => (v, true)
    | none => (default, false)

/-- The assignment `m.defs[k] = v`; assigning to an entry of a nil map panics. -/
def Map.assign (m : Map V) (k : Sym) (v : V) : Except Fault (Map V) :=
  match m.defs with
  | none => .error Fault.nilMap
  | some g => .ok ⟨some (g.insert k v)⟩

/-- The statement `delete(m.defs, k)`; deleting from a nil map does nothing. -/
def Map.remove (m : Map V) (k : Sym) : Map V :=
  match m.defs with
  | none => m
  | some g => ⟨some (g.erase k)⟩

/-- Source `Def`: the entry keyed by `enum[K]{}`. -/
def Def (K : GoType) (v : V) : Entry V := ⟨.ofEnum K, v⟩

/-- Source `DefSym`: the entry keyed by `sym.enum()`. -/
def DefSym (sym : Sym) (v : V) : Except Fault (Entry V) := do
  let k ← sym.enum
  pure ⟨k, v⟩

/-- Source `Map.Store`: assigns the entries from left to right. -/
def Map.Store (m : Map V) (defs : List (Entry V)) : Except Fault (Map V) :=
  defs.foldlM (fun acc d => acc.assign d.k d.v) m

/-- Source `NewMap`: a fresh map with the given definitions stored. -/
def NewMap (defs : List (Entry V)) : Except Fault (Map V) :=
  Map.Store ⟨some ∅⟩ defs

/-- Source `Map.Delete`: deletes `key.enum()` for each key from left to right. -/
def Map.Delete (m : Map V) (keys : List Sym) : Except Fault (Map V) :=
  keys.foldlM (fun acc key => do
    let k ← key.enum
    pure (acc.remove k)) m

/-- Source `Map.Len`: `len(m.defs)`. -/
def Map.Len (m : Map V) : Nat :=
  match m.defs with
  | none => 0
  | some g => g.entries.length

/-- Source `Map.Keys`: the keys in the order the `range` loop visits them. -/
def Map.Keys (m : Map V) : List Sym :=
  match m.defs with
  | none => []
  | some g => g.keys

/-- Source `Map.Entries`: the entries in the order the `range` loop visits them. -/
def Map.Entries (m : Map V) : List (Entry V) :=
  match m.defs with
  | none => []
  | some g => g.entries.map (fun kv => ⟨kv.1, kv.2⟩)

/-- Source `Load`: `m.defs[Sym(enum[K]{})]`. -/
def Load [Inhabited V] (K : GoType) (m : Map V) : V × Bool :=
  m.index (.ofEnum K)

/-- Source `LoadTypeOf`: `Load[K](m)`, with `K` the static type of the second argument. -/
def LoadTypeOf [Inhabited V] (K : GoType) (m : Map V) (_x : Val) : V × Bool :=
  Load K m

/-- Source `LoadSym`: `m.defs[sym.enum()]`. -/
def LoadSym [Inhabited V] (m : Map V) (sym : Sym) : Except Fault (V × Bool) := do
  let k ← sym.enum
  pure (m.index k)

/-- A map built by `NewMap` (and used since): its `defs` map is allocated.  The zero
value `Map[V]{}` is the only `Map` that is not. -/
def Map.Built (m : Map V) : Prop := m.defs.isSome = true

instance (m : Map V) : Decidable m.Built := by unfold Map.Built; infer_instance

end Map

/-! ## Example types of the tests -/

/-- The local type `type bit bool` of `ExampleUnwrapAs_noConversion`. -/
def bit : GoType := .named "lift_test.bit" GoType.bool [] []

/-- The local type `type local struct{}` of `Example_e_emptyAnyNil`. -/
def localStruct : GoType := .named "lift_test.local" GoType.emptyStruct [] []

/-- The type `strings.Builder` (its fields abridged); all its methods, `Write` among
them, have a pointer receiver. -/
def stringsBuilder : GoType :=
  .named "strings.Builder" (.struct (.tcons "buf" (.slice GoType.uint8) .tnil)) []
    ["Cap", "Grow", "Len", "Reset", "String", "Write", "WriteByte", "WriteRune", "WriteString"]

/-- The interface type `io.Writer`. -/
def ioWriter : GoType := .named "io.Writer" (.iface ["Write"]) [] []

/-- The container of scenario A: int is "red", float64 is "blue". -/
def colors : Map String :=
  ⟨some (((∅ : GoMap String).insert (T GoType.int) "red").insert (T GoType.float64) "blue")⟩

/-- The map of `TestMapExtra`: entries for int, uint, byte and rune. -/
def extra : Map Unit :=
  ⟨some (((((∅ : GoMap Unit).insert (T GoType.int) ()).insert (T GoType.uint) ()).insert
    (T GoType.byte) ()).insert (T GoType.rune) ())⟩

/-- The container of `ExampleDefSym`: one entry, stored under `lift.Any`. -/
def items : Map String :=
  ⟨some ((∅ : GoMap String).insert Any "could be anything")⟩

/-- The container of `Example_e_emptyAnyNil`. -/
def corner : Map String :=
  ⟨some (((((∅ : GoMap String).insert (T GoType.emptyStruct) "the empty struct").insert
    (T GoType.Empty) "the lift.Empty struct").insert (T GoType.any) "anything").insert
    (T GoType.Sym) "the type enumeration of lift.Sym")⟩

/-- The dynamic type of a payload `v` whose static type is `t`: `t` itself for a
concrete type; for an interface type, the type held in the interface value, if any. -/
def dynTypeOf (t : GoType) (v : Val) : Option GoType :=
  if t.isInterface then
    match v with
    | Val.box d _ => some d
    | _ => none
  else some t

/-- Whether the payload `v` of static type `t` has a dynamic type and that type
satisfies `c`. -/
def payloadSatisfies (t : GoType) (v : Val) (c : GoType) : Bool :=
  match dynTypeOf t v with
  | some d => GoType.satisfies d c
  | none => false

/-- What a lookup of key `k` returns once the entries `es` have been stored, given that
it returned `old` before: the value of the last entry of `es` whose key is `k` if there
is one, and `old` otherwise. -/
def lastStored {V : Type} (es : List (Entry V)) (k : Sym) (old : V × Bool) : V × Bool :=
  match es.reverse.find? (fun e => decide (e.k = k)) with
  | some e => (e.v, true)
  | none => old

/-- The payload `v` of static type `t` seen as a value of type `c`: the interface value
holding it when `c` is an interface type, the concrete value itself otherwise. -/
def asType (c t : GoType) (v : Val) : Val :=
  if c.isInterface then toAny t v
  else if t.isInterface then
    match v with
    | Val.box _ p => p
    | _ => v
  else v

/-! ## The fizzbuzz example -/

/-- The type `fizz` of the fizzbuzz example, declared as an empty struct. -/
def fizz : GoType := .named "lift_test.fizz" GoType.emptyStruct [] []

/-- The type `buzz` of the fizzbuzz example, declared as an empty struct. -/
def buzz : GoType := .named "lift_test.buzz" GoType.emptyStruct [] []

/-- Source `liftFizzBuzz`: the function that applies `fn` to the payload of a Sym that
unwraps at `T`, and returns the empty string on any other Sym. -/
def liftFizzBuzz (t : GoType) (fn : Val → String) (sym : Sym) : String :=
  match Unwrap t sym with
  | (v, true) => fn v
  | (_, false) => ""

/-- Source `parseFizzBuzz`: `f` wraps a `fizz` when 3 divides `i`, `b` wraps a `buzz`
when 5 divides `i`; otherwise they stay nil. -/
def parseFizzBuzz (i : Int) : Sym × Sym :=
  (if i % 3 = 0 then Wrap fizz Val.unit else Sym.nil,
   if i % 5 = 0 then Wrap buzz Val.unit else Sym.nil)

/-- The body of the loop of `Example_1FizzBuzz`: the string `sayFizz(f) + sayBuzz(b)`. -/
def fizzBuzzLine (i : Int) : String :=
  liftFizzBuzz fizz (fun _ => "fizz") (parseFizzBuzz i).1 ++
    liftFizzBuzz buzz (fun _ => "buzz") (parseFizzBuzz i).2

/-! ## Containers reachable through the API -/

mutual
/-- Entries as client code can obtain them: built by `Def`, built by `DefSym` from a Sym
on which it does not panic (a valid one), or taken from the `Entries()` of a container
that is itself reachable. -/
inductive ApiEntry {V : Type} : Entry V → Prop
  | ofDef (K : GoType) (v : V) : ApiEntry (Def K v)
  | ofDefSym (s : Sym) (v : V) (e : Entry V) : DefSym s v = .ok e → ApiEntry e
  | ofEntries (m : Map V) (e : Entry V) : Reachable m → e ∈ m.Entries → ApiEntry e
/-- Containers reachable from `NewMap` by `Store` and `Delete` calls whose entries are
all `ApiEntry`s. -/
inductive Reachable {V : Type} : Map V → Prop
  | newMap (es : List (Entry V)) (m : Map V) :
      (∀ e, e ∈ es → ApiEntry e) → NewMap es = .ok m → Reachable m
  | store (m : Map V) (es : List (Entry V)) (m' : Map V) :
      Reachable m → (∀ e, e ∈ es → ApiEntry e) → m.Store es = .ok m' → Reachable m'
  | delete (m : Map V) (ks : List Sym) (m' : Map V) :
      Reachable m → m.Delete ks = .ok m' → Reachable m'
end

/-! ## Package conv -/

/-- The zero value of the interface types `lift.Sym` and `conv.Entry`: nil. -/
instance : Inhabited Sym := ⟨Sym.nil⟩

/-- The single-result type assertion `x.(c)`: it panics when the assertion fails. -/
def typeAssert1 (c : GoType) (x : Val) : Except Fault Val :=
  if (typeAssert c x).2 then .ok (typeAssert c x).1 else .error Fault.interfaceConversion

/-- The code of the program's functions of a type `func(SRC) (DST, error)`: what the
function behind the function value `Val.ref id` returns on an argument, or its panic. -/
abbrev Funcs : Type := Nat → Val → Except Fault (Val × Val)

/-- The call `f(x)` of a function value; calling a nil function panics. -/
def callFunc (fs : Funcs) (f x : Val) : Except Fault (Val × Val) :=
  match f with
  | Val.ref id => fs id x
  | _ => .error Fault.nilDeref

/-- The type `*errors.errorString` of the errors `fmt.Errorf` returns. -/
def errorString : GoType :=
  .pointer (.named "errors.errorString" (.struct (.tcons "s" GoType.string .tnil)) [] ["Error"])

/-- Go values in a list, as one value. -/
def Val.ofList : List Val → Val
  | [] => Val.unit
  | x :: xs => Val.cons x (Val.ofList xs)

/-- The error value `fmt.Errorf(format, args...)`: a non-nil `error` whose message is
kept as the format and its arguments, unformatted. -/
def Errorf (format : String) (args : List Val) : Val :=
  Val.box errorString (Val.cons (Val.str format) (Val.ofList args))

namespace conv

/-- Source `conv.Entry`: a defined type whose underlying type is `lift.Sym`. -/
abbrev Entry : Type := Sym

/-- Source `conv.Converter`. -/
structure Converter where
  defs : Map Entry

/-- Source `conv.Def`: `Entry(lift.Wrap(convFunc))`, for `convFunc` of the type
`func(SRC) (DST, error)`. -/
def Def (SRC DST : GoType) (convFunc : Val) : Entry :=
  Wrap (GoType.conv SRC DST) convFunc

/-- Source `Converter.Store`: for each `def`, `cv.defs.Store(lift.DefSym(lift.Sym(def), def))`. -/
def Converter.Store (cv : Converter) (defs : List Entry) : Except Fault Converter :=
  defs.foldlM (fun acc d => do
    let e ← DefSym d d
    let m ← acc.defs.Store [e]
    pure ⟨m⟩) cv

/-- Source `Converter.Delete`: for each `key`, `cv.defs.Delete(key)`. -/
def Converter.Delete (cv : Converter) (keys : List Entry) : Except Fault Converter :=
  keys.foldlM (fun acc key => do
    let m ← acc.defs.Delete [key]
    pure ⟨m⟩) cv

/-- Source `conv.NewConverter`: a converter over a fresh `lift.NewMap[Entry]()`, with
the definitions stored. -/
def NewConverter (defs : List Entry) : Except Fault Converter := do
  let m ← NewMap ([] : List (Lift.Entry Entry))
  Converter.Store ⟨m⟩ defs

/-- Source `conv.Lookup`: the function stored under the tag of `func(SRC) (DST, error)`
and `true`, or the nil function and `false`. -/
def Lookup (SRC DST : GoType) (cv : Converter) : Except Fault (Val × Bool) := do
  let found ← LoadSym cv.defs (T (GoType.conv SRC DST))
  if found.2 then do
    let f ← MustUnwrap (GoType.conv SRC DST) found.1
    pure (f, true)
  else pure (Val.nil, false)

/-- Source `conv.To`: `any(src).(DST)` and a nil error when `T[SRC]() == T[DST]()`;
otherwise the result of the looked-up function on `src`, or the zero value of `DST`
and a "Conversion not found" error when there is none. -/
def To (fs : Funcs) (DST SRC : GoType) (cv : Converter) (src : Val) :
    Except Fault (Val × Val) := do
  let same ← Sym.goEq (T SRC) (T DST)
  if same then do
    let dst ← typeAssert1 DST (toAny SRC src)
    pure (dst, Val.nil)
  else do
    let found ← Lookup SRC DST cv
    if found.2 then callFunc fs found.1 src
    else pure (zero DST,
      Errorf "Conversion not found: %T->%T" [toAny SRC src, toAny DST (zero DST)])

/-- Converters built from `conv.Def` entries: reached from `NewConverter` by `Store`
and `Delete` calls all of whose stored definitions are results of `conv.Def`. -/
inductive FromDefs : Converter → Prop
  | newConverter (defs : List Entry) (cv : Converter) :
      (∀ d ∈ defs, ∃ S D f, d = Def S D f) → NewConverter defs = .ok cv → FromDefs cv
  | store (cv : Converter) (defs : List Entry) (cv' : Converter) :
      FromDefs cv → (∀ d ∈ defs, ∃ S D f, d = Def S D f) → cv.Store defs = .ok cv' →
      FromDefs cv'
  | delete (cv : Converter) (keys : List Entry) (cv' : Converter) :
      FromDefs cv → cv.Delete keys = .ok cv' → FromDefs cv'

/-- A converter whose map is allocated and holds, under the tag of each function type
`func(S) (D, error)`, a `conv.Def` of a function of that type, and nothing else. -/
def WellFormed (cv : Converter) : Prop :=
  cv.defs.Built ∧
    ∀ k e, cv.defs.index k = (e, true) → ∃ S D f, k = T (GoType.conv S D) ∧ e = Def S D f

/-- The function `i2r` of `ExampleTo_failure`: the digit rune of 0 to 9, and the error
"oops" with a blank otherwise. -/
def i2r (x : Val) : Val × Val :=
  match x with
  | Val.int i => if 0 ≤ i ∧ i ≤ 9 then (Val.int (i + 48), Val.nil) else (Val.int 32, Errorf "oops" [])
  | _ => (Val.int 32, Errorf "oops" [])

/-- The function `bit2n` of `ExampleConverter_Delete`. -/
def bit2n (x : Val) : Val × Val :=
  match x with
  | Val.bool true => (Val.int 1, Val.nil)
  | _ => (Val.int 0, Val.nil)

/-- The functions of the examples: `i2r` behind `Val.ref 0`, `bit2n` behind `Val.ref 1`. -/
def exampleFuncs : Funcs := fun id x =>
  match id with
  | 0 => .ok (i2r x)
  | 1 => .ok (bit2n x)
  | _ => .error Fault.nilDeref

/-- The "Conversion not found" error of `conv.To` for a source value and a
destination type. -/
def notFound (SRC DST : GoType) (src : Val) : Val :=
  Errorf "Conversion not found: %T->%T" [toAny SRC src, toAny DST (zero DST)]

/-- The converter of `ExampleTo_failure`: `i2r` registered for int to rune. -/
def digits : Converter :=
  ⟨⟨some ((∅ : GoMap Entry).insert (T (GoType.conv GoType.int GoType.rune))
    (Def GoType.int GoType.rune (Val.ref 0)))⟩⟩

/-- The converter of `ExampleConverter_Delete` before the `Delete`: `bit2n` registered
for bool to int. -/
def bits : Converter :=
  ⟨⟨some ((∅ : GoMap Entry).insert (T (GoType.conv GoType.bool GoType.int))
    (Def GoType.bool GoType.int (Val.ref 1)))⟩⟩

end conv

/-! ## The calculator example -/

namespace calculator

/-- The value of a machine `int` (64 bits, two's complement) after an arithmetic result
`x`: `x` wrapped into the range from `-2^63` to `2^63 - 1`. -/
def wrap (x : Int) : Int := (x + 2 ^ 63) % 2 ^ 64 - 2 ^ 63

/-- The integer held by a value of an integer type. -/
def intOf : Val → Int
  | Val.int n => n
  | _ => 0

/-- The type `calc` (its fields abridged). -/
def calcT : GoType := .named "lift_test.calc" (.struct .tnil) [] ["add", "div", "evaluate",
  "enterAccumulate", "enterErr", "enterEvaluated", "enterStart", "mul", "reset", "sub"]

/-- Source `keyC`. -/
def keyC : GoType := .named "lift_test.keyC" GoType.emptyStruct [] []

/-- Source `keyEq`. -/
def keyEq : GoType := .named "lift_test.keyEq" GoType.emptyStruct [] []

/-- Source `keyOp`, an alias of `func(*calc) error`. -/
def keyOp : GoType := .func (.tcons "" (.pointer calcT) .tnil) (.tcons "" GoType.error .tnil)

/-- Source `keyNum`, an alias of `int`. -/
def keyNum : GoType := GoType.int

/-- The four methods of `calc` that serve as operators. -/
inductive Op
  | add | sub | mul | div
  deriving DecidableEq, Repr

/-- The method expression `(*calc).add` (and so on) as a function value. -/
def Op.toVal : Op → Val
  | .add => Val.ref 0
  | .sub => Val.ref 1
  | .mul => Val.ref 2
  | .div => Val.ref 3

/-- The operator behind a function value of type `func(*calc) error`, if it is one of
the four; the nil function is none of them. -/
def opOf : Val → Option Op
  | Val.ref 0 => some .add
  | Val.ref 1 => some .sub
  | Val.ref 2 => some .mul
  | Val.ref 3 => some .div
  | _ => none

/-- The edge functions of the calculator, of type `edgeFunc`. -/
inductive Edge
  | clear | eq | eval | store | acc | beginAcc | resetAcc | nop
  deriving DecidableEq, Repr

/-- What `calc.evaluate` prints after the prompt: the result register or an error. -/
inductive Shown
  | value (n : Int)
  | message (s : String)
  deriving DecidableEq, Repr

/-- Source `calc` (a reserved word here, hence the capital): the state map of edges (`none` is the nil function), the registers
and the pending operator; `out` is what has been printed by `evaluate` so far. -/
structure Calc where
  state : Map (Option Edge)
  acc : Int
  res : Int
  op : Val
  out : List Shown

/-- Source `calc.reset`. -/
def Calc.reset (c : Calc) : Calc :=
  { c with acc := 0, res := 0, op := Op.add.toVal }

/-- Go's integer division `a / b` on `int`: a run-time panic when the divisor is zero;
otherwise the quotient truncated toward zero, wrapped for the one quotient that
overflows. -/
def quo (a b : Int) : Except Fault Int :=
  if b = 0 then .error Fault.divideByZero else .ok (wrap (Int.tdiv a b))

/-- Source `calc.add`, `calc.sub`, `calc.mul` and `calc.div`: the new state and whether
an error is returned (`div` by zero returns the error "DIVZERO!"). -/
def Op.run (o : Op) (c : Calc) : Except Fault (Calc × Option String) :=
  match o with
  | .add => .ok ({ c with res := wrap (c.res + c.acc) }, none)
  | .sub => .ok ({ c with res := wrap (c.res - c.acc) }, none)
  | .mul => .ok ({ c with res := wrap (c.res * c.acc) }, none)
  | .div =>
    if c.acc = 0 then .ok (c, some "DIVZERO!")
    else do
      let q ← quo c.res c.acc
      pure ({ c with res := q }, none)

/-- Source `calc.evaluate`: calls `c.op(c)`, prints the error or the result, and
returns whether there was an error. -/
def Calc.evaluate (c : Calc) : Except Fault (Calc × Bool) :=
  match opOf c.op with
  | none => .error Fault.nilDeref
  | some o => do
    let r ← o.run c
    match r with
    | (c1, some msg) => pure ({ c1 with out := c1.out ++ [Shown.message msg] }, true)
    | (c1, none) => pure ({ c1 with out := c1.out ++ [Shown.value c1.res] }, false)

/-- The body shared by the four `enter` methods: `c.state.Store` of an edge for `keyOp`
and one for `keyNum`. -/
def Calc.enter (c : Calc) (onOp onNum : Edge) : Except Fault Calc := do
  let st ← c.state.Store [Lift.Def keyOp (some onOp), Lift.Def keyNum (some onNum)]
  pure { c with state := st }

/-- Source `calc.enterStart`. -/
def Calc.enterStart (c : Calc) : Except Fault Calc := c.enter .eval .beginAcc

/-- Source `calc.enterAccumulate`. -/
def Calc.enterAccumulate (c : Calc) : Except Fault Calc := c.enter .eval .acc

/-- Source `calc.enterEvaluated`. -/
def Calc.enterEvaluated (c : Calc) : Except Fault Calc := c.enter .store .resetAcc

/-- Source `calc.enterErr`. -/
def Calc.enterErr (c : Calc) : Except Fault Calc := c.enter .nop .nop

/-- Source `store`. -/
def store (c : Calc) (sym : Sym) : Except Fault Calc := do
  let o ← MustUnwrap keyOp sym
  Calc.enterStart { c with op := o }

/-- Source `acc`. -/
def acc (c : Calc) (sym : Sym) : Except Fault Calc := do
  let digit ← MustUnwrap keyNum sym
  let c1 := { c with acc := wrap (c.acc * 10) }
  let c2 := { c1 with acc := wrap (c1.acc + intOf digit) }
  c2.enterAccumulate

/-- Source `beginAcc`. -/
def beginAcc (c : Calc) (sym : Sym) : Except Fault Calc := do
  let digit ← MustUnwrap keyNum sym
  if intOf digit = 0 then pure c
  else acc { c with acc := 0 } sym

/-- The edge functions `clear`, `eq`, `eval`, `store`, `acc`, `beginAcc`, `resetAcc`
and `nop` of the source, by name. -/
def Edge.run (e : Edge) (c : Calc) (sym : Sym) : Except Fault Calc :=
  match e with
  | .clear => c.reset.enterStart
  | .eq => do
    let r ← c.evaluate
    if r.2 then r.1.enterErr else r.1.enterEvaluated
  | .eval => do
    let r ← c.evaluate
    if r.2 then r.1.enterErr else calculator.store r.1 sym
  | .store => calculator.store c sym
  | .acc => calculator.acc c sym
  | .beginAcc => calculator.beginAcc c sym
  | .resetAcc => calculator.beginAcc c.reset sym
  | .nop => pure c

/-- Source `newCalculator`. -/
def newCalculator : Except Fault Calc := do
  let st ← NewMap [Lift.Def keyC (some Edge.clear), Lift.Def keyEq (some Edge.eq)]
  let c : Calc := { state := st, acc := 0, res := 0, op := Val.nil, out := [] }
  c.reset.enterStart

/-- Source `parseCalculatorKey` (the echo of the key left out). -/
def parseCalculatorKey (r : Char) : Sym :=
  if r = 'C' then Wrap keyC Val.unit
  else if r = '=' then Wrap keyEq Val.unit
  else if r = '+' then Wrap keyOp Op.add.toVal
  else if r = '-' then Wrap keyOp Op.sub.toVal
  else if r = '*' then Wrap keyOp Op.mul.toVal
  else if r = '/' then Wrap keyOp Op.div.toVal
  else if '0' ≤ r ∧ r ≤ '9' then Wrap keyNum (Val.int (r.toNat - 48))
  else Wrap keyC Val.unit

/-- The body of the loop of `calculate`: parse the key, load its edge from the state
and call it; calling a nil edge panics. -/
def step (c : Calc) (r : Char) : Except Fault Calc := do
  let sym := parseCalculatorKey r
  let found ← LoadSym c.state sym
  match found.1 with
  | some e => e.run c sym
  | none => .error Fault.nilDeref

/-- Source `calculate`: a fresh calculator run over the keys of the input; the final
state is returned for inspection. -/
def calculate (input : String) : Except Fault Calc := do
  let c ← newCalculator
  input.toList.foldlM step c

/-- The calculator is in the state whose edge for an operator key is `onOp` and whose
edge for a digit key is `onNum`: its state map is allocated and holds `clear`, `eq`,
`onOp` and `onNum` under the four key tags. -/
def InState (c : Calc) (onOp onNum : Edge) : Prop :=
  c.state.Built ∧
  c.state.index (T keyC) = (some Edge.clear, true) ∧
  c.state.index (T keyEq) = (some Edge.eq, true) ∧
  c.state.index (T keyOp) = (some onOp, true) ∧
  c.state.index (T keyNum) = (some onNum, true)

/-- The key of the decimal digit `d`. -/
def digitKey (d : Nat) : Char := Char.ofNat (48 + d)

/-- The key of an operator. -/
def opKey : Op → Char
  | .add => '+'
  | .sub => '-'
  | .mul => '*'
  | .div => '/'

/-- The number a sequence of decimal digits denotes, most significant digit first. -/
def number (ds : List Nat) : Int :=
  ds.foldl (fun (x : Int) (d : Nat) => 10 * x + (d : Int)) 0

/-- A decimal numeral: digits below ten, and either the single digit 0 or a sequence
that begins with a non-zero digit. -/
def Numeral (ds : List Nat) : Prop :=
  (∀ d ∈ ds, d < 10) ∧ (ds = [0] ∨ ∃ d rest, ds = d :: rest ∧ d ≠ 0)

/-- The exact result of `a op b`. -/
def Op.exact (o : Op) (a b : Int) : Int :=
  match o with
  | .add => a + b
  | .sub => a - b
  | .mul => a * b
  | .div => Int.tdiv a b

/-- The calculator after `evaluate` has applied the operator `o` (not a division by
zero) and displayed the result. -/
def Calc.evaluated (c : Calc) (o : Op) : Calc :=
  { c with res := wrap (o.exact c.res c.acc)
           out := c.out ++ [Shown.value (wrap (o.exact c.res c.acc))] }

/-- The key sequence "a op b =" for operands given by their decimal digits. -/
def keySequence (da : List Nat) (o : Op) (db : List Nat) : String :=
  String.mk (da.map digitKey ++ [opKey o] ++ db.map digitKey ++ ['='])

/-- The pairs of edges the four `enter` methods store for an operator key and a digit
key: those of the states start, accumulate, evaluated and error. -/
def Allowed (onOp onNum : Edge) : Prop :=
  (onOp = .eval ∧ onNum = .beginAcc) ∨ (onOp = .eval ∧ onNum = .acc) ∨
  (onOp = .store ∧ onNum = .resetAcc) ∨ (onOp = .nop ∧ onNum = .nop)

/-- The calculator is ready for a key: it is in one of its four states, with an edge
under each of the four key tags, and its pending operator is one of the four operator
methods. -/
def Ready (c : Calc) : Prop :=
  ∃ onOp onNum, InState c onOp onNum ∧ Allowed onOp onNum ∧ ∃ o : Op, c.op = o.toVal

/-- The state map holds a non-nil edge under each of the four key tags. -/
def HoldsEdges (c : Calc) : Prop :=
  ∀ K ∈ [keyC, keyEq, keyOp, keyNum], ∃ e : Edge, c.state.index (T K) = (some e, true)

/-- The edges that call `MustUnwrap[keyOp]`: `store`, and `eval` through `store`. -/
def Edge.unwrapsOp : Edge → Bool
  | .eval | .store => true
  | _ => false

/-- The edges that call `MustUnwrap[keyNum]`: `acc` and `beginAcc`, and `resetAcc`
through `beginAcc`. -/
def Edge.unwrapsNum : Edge → Bool
  | .acc | .beginAcc | .resetAcc => true
  | _ => false

end calculator

/-! ## Lemmas on the map model -/

section MapLemmas
variable {V : Type}

theorem store_some (g : GoMap V) (es : List (Entry V)) :
    Map.Store ⟨some g⟩ es = .ok ⟨some (es.foldl (fun acc e => acc.insert e.k e.v) g)⟩ := by
  induction es generalizing g with
  | nil => rfl
  | cons e rest ih =>
    have := ih (g.insert e.k e.v)
    simpa [Map.Store, Map.assign, List.foldlM, bind, Except.bind] using this

theorem built_iff (m : Map V) : m.Built ↔ ∃ g, m = ⟨some g⟩ := by
  cases m with
  | mk d =>
    cases d with
    | none => simp [Map.Built]
    | some g => simp [Map.Built]

theorem index_some [Inhabited V] (g : GoMap V) (k : Sym) :
    (Map.mk (some g)).index k =
      (match g.lookup k with
       | some v => (v, true)
       | none => (default, false)) := rfl

theorem index_of_not_mem [Inhabited V] (m : Map V) (k : Sym) (h : k ∉ m.Keys) :
    m.index k = (default, false) := by
  cases m with
  | mk d =>
    cases d with
    | none => rfl
    | some g =>
      have : g.lookup k = none := AList.lookup_eq_none.mpr (fun hk => h (AList.mem_keys.mp hk))
      simp [Map.index, this]

theorem index_found_iff [Inhabited V] (m : Map V) (k : Sym) :
    (m.index k).2 = true ↔ k ∈ m.Keys := by
  cases m with
  | mk d =>
    cases d with
    | none => simp [Map.index, Map.Keys]
    | some g =>
      cases h : g.lookup k with
      | none =>
        have : k ∉ g := AList.lookup_eq_none.mp h
        simp [Map.index, Map.Keys, h, ← AList.mem_keys, this]
      | some v =>
        have : k ∈ g := AList.lookup_isSome.mp (by simp [h])
        simp [Map.index, Map.Keys, h, ← AList.mem_keys, this]

theorem enum_eq_tag (s : Sym) (h : s ≠ Sym.nil) : s.enum = .ok s.tag := by
  cases s with
  | nil => exact absurd rfl h
  | ofEnum t => rfl
  | ofWrapped t v => rfl

theorem keys_nodup (m : Map V) : m.Keys.Nodup := by
  cases m with
  | mk d =>
    cases d with
    | none => exact List.nodup_nil
    | some g => exact g.keys_nodup

theorem len_eq_keys_length (m : Map V) : m.Len = m.Keys.length := by
  cases m with
  | mk d =>
    cases d with
    | none => rfl
    | some g => simp [Map.Len, Map.Keys, AList.keys, List.keys]

theorem keys_remove (m : Map V) (k : Sym) :
    (m.remove k).Keys = m.Keys.filter (fun j => decide (j ≠ k)) := by
  cases m with
  | mk d =>
    cases d with
    | none => rfl
    | some g =>
      simp only [Map.remove, Map.Keys, AList.keys_erase]
      rw [g.keys_nodup.erase_eq_filter k]
      apply List.filter_congr
      intro j _
      by_cases hj : j = k <;> simp [hj]

theorem keys_foldl_remove (f : Sym → Sym) (ks : List Sym) (m : Map V) :
    (ks.foldl (fun acc k => acc.remove (f k)) m).Keys =
      m.Keys.filter (fun j => decide (j ∉ ks.map f)) := by
  induction ks generalizing m with
  | nil => simp
  | cons k rest ih =>
    rw [List.foldl_cons, ih, keys_remove, List.filter_filter]
    apply List.filter_congr
    intro j _
    simp [Bool.and_comm]

theorem delete_valid (m : Map V) (ks : List Sym) (h : ∀ k ∈ ks, k ≠ Sym.nil) :
    m.Delete ks = .ok (ks.foldl (fun acc k => acc.remove k.tag) m) := by
  induction ks generalizing m with
  | nil => rfl
  | cons k rest ih =>
    have hk : k.enum = .ok k.tag := enum_eq_tag k (h k (List.mem_cons_self _ _))
    have hr := ih (m.remove k.tag) (fun j hj => h j (List.mem_cons_of_mem _ hj))
    unfold Map.Delete at hr ⊢
    rw [List.foldlM_cons, hk]
    exact hr

theorem length_filter_mem_comm (l p : List Sym) (hl : l.Nodup) :
    (l.filter (fun j => decide (j ∈ p))).length =
      (p.dedup.filter (fun t => decide (t ∈ l))).length := by
  apply List.Perm.length_eq
  rw [List.perm_ext_iff_of_nodup (hl.filter _) ((List.nodup_dedup p).filter _)]
  intro a
  simp [List.mem_filter, and_comm]

theorem length_filter_split (l : List Sym) (q : Sym → Bool) :
    (l.filter q).length + (l.filter (fun j => !q j)).length = l.length := by
  induction l with
  | nil => rfl
  | cons a rest ih =>
    cases h : q a <;> simp [List.filter_cons, h] <;> omega

theorem newMap_built (es : List (Entry V)) : ∃ m, NewMap es = .ok m ∧ m.Built :=
  ⟨_, store_some ∅ es, rfl⟩

theorem store_built (m : Map V) (hm : m.Built) (es : List (Entry V)) :
    ∃ m', m.Store es = .ok m' ∧ m'.Built := by
  obtain ⟨g, rfl⟩ := (built_iff m).mp hm
  exact ⟨_, store_some g es, rfl⟩

theorem remove_built (m : Map V) (hm : m.Built) (k : Sym) : (m.remove k).Built := by
  obtain ⟨g, rfl⟩ := (built_iff m).mp hm
  rfl

theorem len_assign (g : GoMap V) (k : Sym) (v : V) :
    (Map.mk (some (g.insert k v))).Len =
      (if k ∈ (Map.mk (some g)).Keys then (Map.mk (some g)).Len else (Map.mk (some g)).Len + 1) := by
  rw [len_eq_keys_length, len_eq_keys_length]
  simp only [Map.Keys, AList.keys_insert, List.length_cons]
  by_cases h : k ∈ g.keys
  · have hpos : 0 < g.keys.length := List.length_pos_of_mem h
    rw [if_pos h, List.length_erase_of_mem h]
    omega
  · rw [if_neg h, List.erase_of_not_mem h]

theorem lookup_foldl_insert (es : List (Entry V)) (g : GoMap V) (k : Sym) :
    (es.foldl (fun acc e => acc.insert e.k e.v) g).lookup k =
      (match es.reverse.find? (fun e => decide (e.k = k)) with
       | some e => some e.v
       | none => g.lookup k) := by
  induction es generalizing g with
  | nil => rfl
  | cons e rest ih =>
    rw [List.foldl_cons, ih, List.reverse_cons, List.find?_append]
    cases hfind : rest.reverse.find? (fun e => decide (e.k = k)) with
    | some e1 => rfl
    | none =>
      by_cases hk : e.k = k
      · subst hk
        simp [List.find?, AList.lookup_insert]
      · have hne : k ≠ e.k := fun h => hk h.symm
        simp [List.find?, hk, AList.lookup_insert_ne hne]

end MapLemmas

/-! ## Wrap and Unwrap -/

/-- C1: for every type `A` and every payload `v`, `Unwrap[A](Wrap[A](v))` is `(v, true)`,
and for every type `U`, `Unwrap[U](Wrap[A](v))` is `(v, true)` when `U` is identical to
`A` and `(zero value of U, false)` otherwise.  This includes the nil value of `any`
(`Unwrap[any]` of it succeeds with the nil payload, `Unwrap[struct{}]` of it fails) and
a payload of static type `any` whose dynamic type is `U`: unwrapping it at `U` fails
unless `U` is `any`.  A wrapped float64 (the bits of pi) unwraps at float64 and not at
float32. -/
theorem unwrap_wrap (A U : GoType) (v p : Val) :
    Unwrap A (Wrap A v) = (v, true) ∧
    Unwrap U (Wrap A v) = (if U = A then (v, true) else (zero U, false)) ∧
    Unwrap GoType.any (Wrap GoType.any Val.nil) = (Val.nil, true) ∧
    Unwrap GoType.emptyStruct (Wrap GoType.any Val.nil) = (Val.unit, false) ∧
    Unwrap U (Wrap GoType.any (toAny U p)) =
      (if U = GoType.any then (toAny U p, true) else (zero U, false)) ∧
    Unwrap GoType.float64 (Wrap GoType.float64 (Val.float 0x400921FB54442D18)) =
      (Val.float 0x400921FB54442D18, true) ∧
    Unwrap GoType.float32 (Wrap GoType.float64 (Val.float 0x400921FB54442D18)) =
      (Val.float 0, false) := by
  have key : ∀ (B C : GoType) (w : Val),
      Unwrap C (Wrap B w) = (if C = B then (w, true) else (zero C, false)) := by
    intro B C w
    by_cases h : C = B
    · subst h; simp [Unwrap, Wrap, Sym.assertWrapped]
    · have h2 : ¬ B = C := fun e => h e.symm
      simp [Unwrap, Wrap, Sym.assertWrapped, h, h2]
  refine ⟨?_, key A U v, ?_, ?_, key GoType.any U _, ?_, ?_⟩
  · simpa using key A A v
  · simpa using key GoType.any GoType.any Val.nil
  · simpa [zero] using key GoType.any GoType.emptyStruct Val.nil
  · simpa using key GoType.float64 GoType.float64 (Val.float 0x400921FB54442D18)
  · simpa [zero] using key GoType.float64 GoType.float32 (Val.float 0x400921FB54442D18)

/-! ## Tags -/

/-- C2: for all types `A` and `B`, `T[A]() == T[B]()` evaluates without fault to whether
`A` and `B` are the identical type.  The alias pair rune / int32 gives equal tags, rune
and byte unequal ones; `struct{}`, `lift.Empty` and a local `type local struct{}` give
pairwise unequal tags. -/
theorem tag_eq_iff_identical (A B : GoType) :
    Sym.goEq (T A) (T B) = .ok (decide (A = B)) ∧
    (Sym.goEq (T A) (T B) = .ok true ↔ A = B) ∧
    Sym.goEq (T GoType.rune) (T GoType.int32) = .ok true ∧
    Sym.goEq (T GoType.rune) (T GoType.byte) = .ok false ∧
    Sym.goEq (T GoType.emptyStruct) (T GoType.Empty) = .ok false ∧
    Sym.goEq (T GoType.emptyStruct) (T localStruct) = .ok false ∧
    Sym.goEq (T GoType.Empty) (T localStruct) = .ok false := by
  refine ⟨rfl, ?_, ?_, ?_, ?_, ?_, ?_⟩
  · simp [Sym.goEq, T]
  · simp [Sym.goEq, T]
  · simp [Sym.goEq, T]
  · simp [Sym.goEq, T]
  · simp [Sym.goEq, T, localStruct]
  · simp [Sym.goEq, T, localStruct]

/-! ## UnwrapAs -/

/-- C3: for every `w = Wrap[A](v)` and every type `C`, `UnwrapAs[C](w)` returns without
fault; it is `(v as C, true)` when the payload has a dynamic type and that type satisfies
`C` (is `C`, or implements the interface `C`), and `(zero value of C, false)` otherwise.
The result does not depend on the static type used at Wrap time: wrapping the same value
as `any` gives the same result.  A defined type whose underlying type is the concrete
type `C` does not match (`type bit bool` against `bool`), a nil interface payload matches
no `C`, and a `*strings.Builder` payload matches `io.Writer`. -/
theorem unwrapAs_wrap (A C D : GoType) (v p : Val) (n : String) (ms pms : List String) :
    UnwrapAs C (Wrap A v) =
      .ok (if payloadSatisfies A v C then (asType C A v, true) else (zero C, false)) ∧
    UnwrapAs C (Wrap GoType.any (toAny D p)) = UnwrapAs C (Wrap D p) ∧
    (C.isInterface = false →
      UnwrapAs C (Wrap (GoType.named n C ms pms) v) = .ok (zero C, false)) ∧
    UnwrapAs C (Wrap (GoType.iface ms) Val.nil) = .ok (zero C, false) ∧
    UnwrapAs C (Wrap (GoType.named n (GoType.iface ms) [] []) Val.nil) = .ok (zero C, false) ∧
    UnwrapAs GoType.bool (Wrap bit (Val.bool true)) = .ok (Val.bool false, false) ∧
    UnwrapAs ioWriter (Wrap (GoType.pointer stringsBuilder) (Val.ref 1)) =
      .ok (Val.box (GoType.pointer stringsBuilder) (Val.ref 1), true) := by
  refine ⟨?_, ?_, ?_, ?_, ?_, ?_, ?_⟩
  · by_cases hA : A.isInterface = true
    · cases v <;>
        simp [UnwrapAs, Wrap, Sym.exfiltrate, toAny, typeAssert, dynTypeOf, asType, hA,
          payloadSatisfies, bind, Except.bind, pure, Except.pure]
    · by_cases hC : C.isInterface = true <;>
        simp [UnwrapAs, Wrap, Sym.exfiltrate, toAny, typeAssert, dynTypeOf, asType, hA, hC,
          payloadSatisfies, bind, Except.bind, pure, Except.pure]
  · by_cases hD : D.isInterface = true <;>
      simp [UnwrapAs, Wrap, Sym.exfiltrate, toAny, GoType.isInterface, hD]
  · intro hC
    have hne : ¬ GoType.named n C ms pms = C := by
      intro h
      have := congrArg sizeOf h
      simp at this
      omega
    simp [UnwrapAs, Wrap, Sym.exfiltrate, toAny, typeAssert, GoType.isInterface,
      GoType.satisfies, hC, hne, bind, Except.bind, pure, Except.pure]
  · simp [UnwrapAs, Wrap, Sym.exfiltrate, toAny, typeAssert, GoType.isInterface,
      bind, Except.bind, pure, Except.pure]
  · simp [UnwrapAs, Wrap, Sym.exfiltrate, toAny, typeAssert, GoType.isInterface,
      bind, Except.bind, pure, Except.pure]
  · simp [UnwrapAs, Wrap, Sym.exfiltrate, toAny, typeAssert, GoType.isInterface, bit,
      GoType.satisfies, zero, bind, Except.bind, pure, Except.pure]
  · simp [UnwrapAs, Wrap, Sym.exfiltrate, toAny, typeAssert, GoType.isInterface,
      GoType.satisfies, GoType.implements, GoType.methodSet, stringsBuilder, ioWriter,
      bind, Except.bind, pure, Except.pure]

/-- The instance of C3 at `type bit bool`: the hypothesis that `bool` is no interface
type holds, and `UnwrapAs[bool]` of a wrapped `bit` fails. -/
theorem unwrapAs_wrap_witness :
    GoType.bool.isInterface = false ∧
    UnwrapAs GoType.bool (Wrap (GoType.named "lift_test.bit" GoType.bool [] []) (Val.bool true))
      = .ok (zero GoType.bool, false) :=
  ⟨rfl, (unwrapAs_wrap GoType.bool GoType.bool GoType.bool (Val.bool true) Val.nil
    "lift_test.bit" [] []).2.2.1 rfl⟩

/-! ## MustUnwrap and MustUnwrapAs -/

/-- C4: for every type `U` and every `s = Wrap[A](v)`: `MustUnwrap[U](s)` returns the
payload of `Unwrap[U](s)` when that call finds it and panics (naming the wanted and the
actual symbol type) when it does not, so it faults exactly when `Unwrap[U](s)` returns
`found = false`; and `MustUnwrapAs[U](s)` stands in the same relation to `UnwrapAs[U](s)`,
which itself returns without fault on `s`.  Both calls of `TestMustPanic`, at `struct{}`
on a wrapped nil `any`, panic. -/
theorem mustUnwrap_iff_not_found (A U : GoType) (v : Val) :
    MustUnwrap U (Wrap A v) =
      (if (Unwrap U (Wrap A v)).2 = true then .ok (Unwrap U (Wrap A v)).1
       else .error (Fault.mustUnwrap (.enum U) (.enum A))) ∧
    (faults (MustUnwrap U (Wrap A v)) = true ↔ (Unwrap U (Wrap A v)).2 = false) ∧
    (∃ r : Val × Bool, UnwrapAs U (Wrap A v) = .ok r ∧
      MustUnwrapAs U (Wrap A v) =
        (if r.2 = true then .ok r.1 else .error (Fault.mustUnwrapAs (.enum U) (.enum A))) ∧
      (faults (MustUnwrapAs U (Wrap A v)) = true ↔ r.2 = false)) ∧
    faults (MustUnwrap GoType.emptyStruct (Wrap GoType.any Val.nil)) = true ∧
    faults (MustUnwrapAs GoType.emptyStruct (Wrap GoType.any Val.nil)) = true := by
  refine ⟨?_, ?_, ?_, rfl, rfl⟩
  · by_cases h : A = U
    · subst h; simp [MustUnwrap, Unwrap, Wrap, Sym.assertWrapped]
    · simp [MustUnwrap, Unwrap, Wrap, Sym.assertWrapped, Sym.enum, h]
  · by_cases h : A = U
    · subst h; simp [MustUnwrap, Unwrap, Wrap, Sym.assertWrapped, faults]
    · simp [MustUnwrap, Unwrap, Wrap, Sym.assertWrapped, Sym.enum, faults, h]
  · refine ⟨typeAssert U (toAny A v), rfl, ?_⟩
    rcases h : typeAssert U (toAny A v) with ⟨w, b⟩
    cases b <;>
      simp [MustUnwrapAs, Wrap, Sym.exfiltrate, Sym.enum, faults, h, bind, Except.bind,
        pure, Except.pure]

/-! ## Store, Load and Delete -/

section MapClaims
variable {V : Type}

/-- C5: for every container `m` built by `NewMap` (its map is allocated), every key type
`K` and every value `v`: `m.Store(Def[K](v))` returns without fault and afterwards
`Load[K](m)` is `(v, true)`; and for every type `J` under whose tag no entry is stored,
before or after the call, `Load[J](m)` is `(zero value of V, false)`. -/
theorem store_def_load [Inhabited V] (m : Map V) (hm : m.Built) (K : GoType) (v : V) :
    ∃ m', m.Store [Def K v] = .ok m' ∧ Load K m' = (v, true) ∧
      (∀ J, T J ∉ m'.Keys → Load J m' = (default, false)) ∧
      (∀ J, T J ∉ m.Keys → Load J m = (default, false)) := by
  obtain ⟨g, rfl⟩ := (built_iff m).mp hm
  refine ⟨_, store_some g [Def K v], ?_, ?_, ?_⟩
  · simp [Load, Def, index_some, AList.lookup_insert]
  · intro J hJ
    exact index_of_not_mem _ _ hJ
  · intro J hJ
    exact index_of_not_mem _ _ hJ

/-- Scenario A as the instance of C5: `NewMap` of the entries int "red", float64 "blue"
builds `colors`; `Load[int]` is `("red", true)`, `Load[string]` is `("", false)`, and C5
holds of `colors` at key type uint8. -/
theorem store_def_load_witness :
    NewMap [Def GoType.int "red", Def GoType.float64 "blue"] = .ok colors ∧ colors.Built ∧
      Load GoType.int colors = ("red", true) ∧ Load GoType.string colors = ("", false) ∧
      ∃ m', colors.Store [Def GoType.uint8 "mask"] = .ok m' ∧
        Load GoType.uint8 m' = ("mask", true) ∧
        (∀ J, T J ∉ m'.Keys → Load J m' = (default, false)) ∧
        (∀ J, T J ∉ colors.Keys → Load J colors = (default, false)) :=
  ⟨rfl, rfl, rfl, rfl, store_def_load colors rfl GoType.uint8 "mask"⟩

/-- C6: for every container `m` and every list `ks` of valid (non-nil) Syms,
`m.Delete(ks...)` returns without fault, afterwards `LoadSym(m, k)` is
`(zero value, false)` for every `k` in `ks` (so is `Load[K](m)` after
`m.Delete(T[K]())`), and `Len` has dropped by the number of
distinct tags of `ks` that were keys of `m` before the call (absent tags change
nothing).  In particular, for a container all of whose keys are bare tags `T[K]()`, as
`Def` and `DefSym` produce them, `m.Delete(m.Keys()...)` leaves `Len() == 0`. -/
theorem delete_spec [Inhabited V] (m : Map V) (ks : List Sym) :
    ((∀ k ∈ ks, k ≠ Sym.nil) →
      ∃ m', m.Delete ks = .ok m' ∧
        (∀ k ∈ ks, LoadSym m' k = .ok (default, false)) ∧
        (∀ K, T K ∈ ks → Load K m' = (default, false)) ∧
        m'.Len + ((ks.map Sym.tag).dedup.filter (fun t => decide (t ∈ m.Keys))).length = m.Len ∧
        m'.Len = m.Len - ((ks.map Sym.tag).dedup.filter (fun t => decide (t ∈ m.Keys))).length) ∧
    ((∀ k ∈ m.Keys, ∃ K, k = T K) →
      ∃ m', m.Delete m.Keys = .ok m' ∧ m'.Len = 0) := by
  constructor
  · intro hks
    have hload : ∀ k ∈ ks, LoadSym (ks.foldl (fun acc k => acc.remove k.tag) m) k =
        .ok (default, false) := by
      intro k hk
      have hnot : k.tag ∉ (ks.foldl (fun acc k => acc.remove k.tag) m).Keys := by
        rw [keys_foldl_remove]
        simp only [List.mem_filter, decide_eq_true_eq, not_and, not_not]
        intro _
        exact List.mem_map_of_mem _ hk
      simp [LoadSym, enum_eq_tag k (hks k hk), bind, Except.bind, pure, Except.pure,
        index_of_not_mem _ _ hnot]
    refine ⟨_, delete_valid m ks hks, hload, ?_, ?_⟩
    · intro K hK
      have h := hload (T K) hK
      simpa [LoadSym, T, Sym.enum, Load, bind, Except.bind, pure, Except.pure] using h
    · have hlen : (ks.foldl (fun acc k => acc.remove k.tag) m).Len +
          ((ks.map Sym.tag).dedup.filter (fun t => decide (t ∈ m.Keys))).length = m.Len := by
        have hfun : (fun j => decide (j ∉ ks.map Sym.tag)) =
            (fun j => !decide (j ∈ ks.map Sym.tag)) := by
          funext j
          simp only [decide_not]
        have hsplit := length_filter_split m.Keys (fun j => decide (j ∈ ks.map Sym.tag))
        rw [len_eq_keys_length, len_eq_keys_length, keys_foldl_remove, hfun,
          ← length_filter_mem_comm m.Keys (ks.map Sym.tag) (keys_nodup m)]
        omega
      exact ⟨hlen, by omega⟩
  · intro hkeys
    have hvalid : ∀ k ∈ m.Keys, k ≠ Sym.nil := by
      intro k hk
      obtain ⟨K, rfl⟩ := hkeys k hk
      simp [T]
    have htag : m.Keys.map Sym.tag = m.Keys := by
      conv_rhs => rw [← List.map_id m.Keys]
      apply List.map_congr_left
      intro k hk
      obtain ⟨K, rfl⟩ := hkeys k hk
      rfl
    refine ⟨_, delete_valid m m.Keys hvalid, ?_⟩
    rw [len_eq_keys_length, keys_foldl_remove, htag]
    simp

/-- `TestMapExtra` as the instance of C6: deleting a tag and a wrapped rune from `extra`
drops `Len` by two, and deleting all of `extra.Keys()` leaves `Len() == 0`. -/
theorem delete_spec_witness :
    (∃ m', extra.Delete [T GoType.int, Wrap GoType.rune (Val.int 63), T GoType.string]
        = .ok m' ∧
      (∀ k ∈ [T GoType.int, Wrap GoType.rune (Val.int 63), T GoType.string],
        LoadSym m' k = .ok (default, false)) ∧
      (∀ K, T K ∈ [T GoType.int, Wrap GoType.rune (Val.int 63), T GoType.string] →
        Load K m' = (default, false)) ∧
      m'.Len + (([T GoType.int, Wrap GoType.rune (Val.int 63), T GoType.string].map
        Sym.tag).dedup.filter (fun t => decide (t ∈ extra.Keys))).length = extra.Len ∧
      m'.Len = extra.Len - (([T GoType.int, Wrap GoType.rune (Val.int 63),
        T GoType.string].map Sym.tag).dedup.filter (fun t => decide (t ∈ extra.Keys))).length) ∧
    (∃ m', extra.Delete extra.Keys = .ok m' ∧ m'.Len = 0) :=
  ⟨(delete_spec extra [T GoType.int, Wrap GoType.rune (Val.int 63), T GoType.string]).1
      (by simp [T, Wrap]),
    (delete_spec extra []).2 (by
      intro k hk
      have hkeys : extra.Keys =
          [T GoType.rune, T GoType.byte, T GoType.uint, T GoType.int] := rfl
      rw [hkeys] at hk
      simp only [List.mem_cons, List.mem_singleton, List.not_mem_nil, or_false] at hk
      rcases hk with rfl | rfl | rfl | rfl <;> exact ⟨_, rfl⟩)⟩

/-- C7: for every container `m` built by `NewMap` and every entry `e` (the entry
`Def[K](v)` has key `T[K]()`, the entry `DefSym(s, v)` of a valid `s` has the tag of `s`):
`m.Store(e)` returns without fault and leaves `Len` unchanged when the key of `e` is
already a key of `m`, and increases it by exactly one when it is not.  And in every map
state `m0`, hence after any sequence of `Store` and `Delete` calls, no key occurs twice
and `Len` is the number of distinct keys that have a live entry. -/
theorem store_len [Inhabited V] (m : Map V) (hm : m.Built) (e : Entry V) (m0 : Map V)
    (K : GoType) (v : V) (s : Sym) :
    (∃ m', m.Store [e] = .ok m' ∧
      m'.Len = (if e.k ∈ m.Keys then m.Len else m.Len + 1)) ∧
    (Def K v).k = T K ∧
    (s ≠ Sym.nil → ∃ e0, DefSym s v = .ok e0 ∧ e0.k = s.tag) ∧
    m0.Keys.Nodup ∧
    m0.Len = m0.Keys.toFinset.card ∧
    (∀ k, k ∈ m0.Keys.toFinset ↔ (m0.index k).2 = true) := by
  obtain ⟨g, rfl⟩ := (built_iff m).mp hm
  refine ⟨⟨_, store_some g [e], len_assign g e.k e.v⟩, rfl, ?_, keys_nodup _, ?_, ?_⟩
  · intro hs
    exact ⟨⟨s.tag, v⟩, by simp [DefSym, enum_eq_tag s hs, bind, Except.bind, pure, Except.pure],
      rfl⟩
  · rw [List.toFinset_card_of_nodup (keys_nodup _), len_eq_keys_length]
  · intro k
    rw [List.mem_toFinset, index_found_iff]

/-- The instance of C7 at `colors`: storing under the present key int leaves `Len` at 2,
storing under the absent key string makes it 3. -/
theorem store_len_witness :
    colors.Built ∧
    (colors.Store [Def GoType.int "green"]).map Map.Len = .ok 2 ∧
    (colors.Store [Def GoType.string "black"]).map Map.Len = .ok 3 ∧
    (∃ m', colors.Store [Def GoType.int "green"] = .ok m' ∧
      m'.Len = (if (Def GoType.int "green").k ∈ colors.Keys then colors.Len
        else colors.Len + 1)) :=
  ⟨rfl, rfl, rfl,
    (store_len colors rfl (Def GoType.int "green") colors GoType.int "green" Sym.nil).1⟩

/-- C8: for every container `m` built by `NewMap` and every list `es` of entries,
`m.Store(es...)` returns without fault and applies the entries left to right: afterwards,
for every tag `T[K]()` (and every valid Sym `s`, looked up by its tag), `LoadSym` returns
the value of the last entry of `es` whose key is that tag if there is one, and otherwise
what `LoadSym` returned on `m` before the call (`lastStored`).  `NewMap(es...)` is `Store(es...)` on the
empty container `NewMap()`, and never faults. -/
theorem store_last_wins [Inhabited V] (m : Map V) (hm : m.Built) (es : List (Entry V)) :
    ∃ m', m.Store es = .ok m' ∧
      (∀ K : GoType, LoadSym m' (T K) = (LoadSym m (T K)).map (lastStored es (T K))) ∧
      (∀ K : GoType, faults (LoadSym m (T K)) = false) ∧
      (∀ s : Sym, s ≠ Sym.nil → LoadSym m' s = (LoadSym m s).map (lastStored es s.tag)) ∧
      NewMap es = (NewMap ([] : List (Entry V)) >>= fun m0 => m0.Store es) ∧
      faults (NewMap es) = false := by
  obtain ⟨g, rfl⟩ := (built_iff m).mp hm
  have key : ∀ k : Sym, (Map.mk (some (es.foldl (fun acc e => acc.insert e.k e.v) g))).index k =
      lastStored es k ((Map.mk (some g)).index k) := by
    intro k
    rw [index_some, index_some, lookup_foldl_insert, lastStored]
    cases es.reverse.find? (fun e => decide (e.k = k)) <;> rfl
  have key2 : ∀ s : Sym, s ≠ Sym.nil →
      LoadSym (Map.mk (some (es.foldl (fun acc e => acc.insert e.k e.v) g))) s =
      (LoadSym (Map.mk (some g)) s).map (lastStored es s.tag) := by
    intro s hs
    simp only [LoadSym, enum_eq_tag s hs, bind, Except.bind, pure, Except.pure, key, Except.map]
  refine ⟨_, store_some g es, ?_, ?_, key2, rfl, ?_⟩
  · intro K
    exact key2 (T K) (by simp [T])
  · intro K
    rfl
  · rw [NewMap, store_some]
    rfl

/-- The instance of C8 at `colors`: of two entries for int in one call the last wins. -/
theorem store_last_wins_witness :
    colors.Built ∧
    (colors.Store [Def GoType.int "one", Def GoType.string "two", Def GoType.int "three"]).map
      (fun m => (Load GoType.int m, Load GoType.string m, Load GoType.float64 m, m.Len)) =
      .ok (("three", true), ("two", true), ("blue", true), 3) ∧
    (∃ m', colors.Store [Def GoType.int "one", Def GoType.int "three"] = .ok m' ∧
      LoadSym m' (T GoType.int) = .ok ("three", true) ∧
      LoadSym m' (T GoType.float64) = .ok ("blue", true) ∧
      LoadSym m' (T GoType.string) = .ok ("", false)) := by
  refine ⟨rfl, rfl, ?_⟩
  obtain ⟨m', h1, h2, _⟩ :=
    store_last_wins colors rfl [Def GoType.int "one", Def GoType.int "three"]
  exact ⟨m', h1, (h2 GoType.int).trans rfl, (h2 GoType.float64).trans rfl,
    (h2 GoType.string).trans rfl⟩

/-- C9: for every type `K`, every value `x` of static type `K` and every container `m`:
`Load[K](m)`, `LoadTypeOf(m, x)`, `LoadSym(m, T[K]())`, `LoadSym(m, TypeOf(x))` and
`LoadSym(m, Wrap[K](x))` return the same (value, found) pair, the `LoadSym` calls without
fault; the payload of the wrapped value plays no part.  So in `ExampleDefSym`
`LoadSym(items, Wrap(any("fish")))` finds the entry stored under `lift.Any`, and the same
string wrapped at its own type string does not. -/
theorem load_variants_agree [Inhabited V] (K : GoType) (x : Val) (m : Map V) :
    LoadTypeOf K m x = Load K m ∧
    LoadSym m (T K) = .ok (Load K m) ∧
    LoadSym m (Wrap K x) = .ok (Load K m) ∧
    LoadSym m (TypeOf K x) = .ok (Load K m) ∧
    (DefSym Any "could be anything" >>= fun e => NewMap [e]) = .ok items ∧
    LoadSym items (Wrap GoType.any (toAny GoType.string (Val.str "fish"))) =
      .ok ("could be anything", true) ∧
    LoadSym items (Wrap GoType.string (Val.str "fish")) = .ok ("", false) :=
  ⟨rfl, rfl, rfl, rfl, rfl, rfl, rfl⟩

end MapClaims

/-! ## TypeOf -/

/-- C10: for every type `K` and every value `x` of static type `K`, `TypeOf(x)` is
`T[K]()` and `TypeOf(x) == T[K]()` is true; for a value holding the dynamic type `d` it
equals `T[d]()` only when `K` is `d`.  For the interface types `any` and `lift.Sym` the
result is the tag of the interface type whatever `x` holds, a nil interface included.
`TypeOf` has no faulting step, and in `Example_e_emptyAnyNil` `LoadTypeOf(items, NilSym)`
and `LoadTypeOf(items, Wrap(any(nil)))` load the entry of `lift.Sym`, `LoadTypeOf` of an
`any` the entry of `any`, and of a `local{}` nothing. -/
theorem typeOf_static (K d : GoType) (x p : Val) (s : Sym) (m : Map String) :
    TypeOf K x = T K ∧
    Sym.goEq (TypeOf K x) (T K) = .ok true ∧
    Sym.goEq (TypeOf K (Val.box d p)) (T d) = .ok (decide (K = d)) ∧
    TypeOf GoType.any (Val.box d p) = T GoType.any ∧
    TypeOf GoType.any Val.nil = T GoType.any ∧
    TypeOf GoType.Sym s.toVal = T GoType.Sym ∧
    TypeOf GoType.Sym Val.nil = T GoType.Sym ∧
    LoadTypeOf GoType.Sym m Sym.nil.toVal = Load GoType.Sym m ∧
    NewMap [Def GoType.emptyStruct "the empty struct", Def GoType.Empty "the lift.Empty struct",
      Def GoType.any "anything", Def GoType.Sym "the type enumeration of lift.Sym"] = .ok corner ∧
    LoadTypeOf GoType.Sym corner Sym.nil.toVal = ("the type enumeration of lift.Sym", true) ∧
    LoadTypeOf GoType.Sym corner (Wrap GoType.any Val.nil).toVal =
      ("the type enumeration of lift.Sym", true) ∧
    LoadTypeOf GoType.any corner (toAny GoType.string (Val.str "other thing")) =
      ("anything", true) ∧
    LoadTypeOf localStruct corner Val.unit = ("", false) := by
  refine ⟨rfl, ?_, rfl, rfl, rfl, rfl, rfl, rfl, rfl, rfl, rfl, rfl, rfl⟩
  simp [TypeOf, T, Sym.goEq]

/-! ## The tag of a wrapped value -/

/-- C11: for every type `A` and value `v`, the Sym `Wrap[A](v)` carries exactly the tag of
`A`: `EnumIs[A]` of it is true and `EnumIs[U]` of it is whether `U` is identical to `A`
(false for every other `U`); `sym.enum()` of it is `T[A]()`.  Yet the wrapped Sym is not
`==` to the bare tag: `T[A]() == Wrap[A](v)` is false, in either order and without
fault.  So for `Wrap(false)` and `Wrap(rune)` of the examples. -/
theorem wrap_carries_tag (A U : GoType) (v : Val) :
    EnumIs A (Wrap A v) = .ok true ∧
    EnumIs U (Wrap A v) = .ok (decide (U = A)) ∧
    (Wrap A v).enum = .ok (T A) ∧
    Sym.goEq (T A) (Wrap A v) = .ok false ∧
    Sym.goEq (Wrap A v) (T A) = .ok false ∧
    EnumIs GoType.bool (Wrap GoType.bool (Val.bool false)) = .ok true ∧
    Sym.goEq (T GoType.rune) (Wrap GoType.rune (Val.int 63)) = .ok false ∧
    EnumIs GoType.rune (Wrap GoType.rune (Val.int 63)) = .ok true := by
  refine ⟨?_, rfl, rfl, rfl, rfl, rfl, rfl, rfl⟩
  simp [EnumIs, Wrap, Sym.enum, Sym.goEq, bind, Except.bind]

/-! ## The nil Sym -/

/-- C12: using the nil Sym as a key is fatal.  For every container `m` (whatever it
holds) and value `v`, `LoadSym(m, nilSym)` panics with a nil dereference and so does
`DefSym(nilSym, v)`, so that `m.Store(DefSym(nilSym, v))` panics before anything is
stored; neither returns `found = false` or an entry. -/
theorem nil_sym_is_fatal {V : Type} [Inhabited V] (m : Map V) (v : V) :
    LoadSym m Sym.nil = .error Fault.nilDeref ∧
    (DefSym Sym.nil v : Except Fault (Entry V)) = .error Fault.nilDeref ∧
    (DefSym Sym.nil v >>= fun e => m.Store [e]) = .error Fault.nilDeref ∧
    faults (LoadSym m Sym.nil) = true ∧
    faults (DefSym Sym.nil v : Except Fault (Entry V)) = true ∧
    LoadSym corner Sym.nil = .error Fault.nilDeref :=
  ⟨rfl, rfl, rfl, rfl, rfl, rfl⟩

/-! ## Unwrap never faults -/

/-- C17: `Unwrap` is total: for every type `A` and every Sym `s` it returns a pair, and
`found` is true exactly when `s` is `Wrap[A](v)` for some `v`, which is then the payload
returned.  On a bare tag `T[K]()` or `TypeOf(x)` and on the nil Sym it returns
`(zero value of A, false)`.  Hence `liftFizzBuzz(fn)(nilSym)` is the empty string
whatever `fn` is, and the lines of the fizzbuzz example for 1 to 30 come out as
expected. -/
theorem unwrap_total (A K : GoType) (s : Sym) (x : Val) (fn : Val → String) :
    ((Unwrap A s).2 = true ↔ ∃ v, s = Wrap A v) ∧
    Unwrap A (Wrap A x) = (x, true) ∧
    (Unwrap A s = (zero A, false) ∨ ∃ v, s = Wrap A v ∧ Unwrap A s = (v, true)) ∧
    Unwrap A (T K) = (zero A, false) ∧
    Unwrap A (TypeOf K x) = (zero A, false) ∧
    Unwrap A Sym.nil = (zero A, false) ∧
    liftFizzBuzz A fn Sym.nil = "" ∧
    liftFizzBuzz A fn (T K) = "" ∧
    (List.range 30).map (fun i => fizzBuzzLine (i + 1)) =
      ["", "", "fizz", "", "buzz", "fizz", "", "", "fizz", "buzz", "", "fizz",
       "", "", "fizzbuzz", "", "", "fizz", "", "buzz", "fizz", "", "", "fizz", "buzz", "",
       "fizz", "", "", "fizzbuzz"] := by
  refine ⟨?_, ?_, ?_, rfl, rfl, rfl, rfl, rfl, ?_⟩
  · cases s with
    | nil => simp [Unwrap, Sym.assertWrapped, Wrap]
    | ofEnum t => simp [Unwrap, Sym.assertWrapped, Wrap]
    | ofWrapped t w =>
      by_cases h : t = A
      · subst h; simp [Unwrap, Sym.assertWrapped, Wrap]
      · simp [Unwrap, Sym.assertWrapped, Wrap, h]
  · simp [Unwrap, Sym.assertWrapped, Wrap]
  · cases s with
    | nil => simp [Unwrap, Sym.assertWrapped]
    | ofEnum t => simp [Unwrap, Sym.assertWrapped]
    | ofWrapped t w =>
      by_cases h : t = A
      · subst h; simp [Unwrap, Sym.assertWrapped, Wrap]
      · simp [Unwrap, Sym.assertWrapped, h]
  · decide

/-! ## Snapshots -/

section Snapshots
variable {V : Type}

theorem mem_entries_iff [Inhabited V] (m : Map V) (e : Entry V) :
    e ∈ m.Entries ↔ (e.k ∈ m.Keys ∧ m.index e.k = (e.v, true)) := by
  obtain ⟨k, v⟩ := e
  cases m with
  | mk d =>
    cases d with
    | none => simp [Map.Entries, Map.Keys]
    | some g =>
      have hmem : (⟨k, v⟩ : Entry V) ∈ (Map.mk (some g)).Entries ↔
          (Sigma.mk k v : Sigma (fun _ : Sym => V)) ∈ g.entries := by
        simp only [Map.Entries, List.mem_map]
        constructor
        · rintro ⟨⟨k1, v1⟩, h1, h2⟩
          cases h2
          exact h1
        · intro h
          exact ⟨⟨k, v⟩, h, rfl⟩
      rw [hmem, ← AList.mem_lookup_iff, index_some]
      constructor
      · intro h
        have hk : k ∈ g := AList.lookup_isSome.mp (by rw [Option.mem_def.mp h]; rfl)
        exact ⟨AList.mem_keys.mp hk, by rw [Option.mem_def.mp h]⟩
      · rintro ⟨_, h⟩
        cases hl : g.lookup k with
        | none => rw [hl] at h; simp at h
        | some w =>
          rw [hl] at h
          simp only [Prod.mk.injEq, and_true] at h
          rw [h]
          exact Option.mem_def.mpr rfl

/-- C13: for every container `m` the snapshots agree with the container and with each
other, whatever order they enumerate in: `len(m.Keys())`, `len(m.Entries())` and
`m.Len()` are equal; `m.Keys()` holds no key twice and is a permutation of the keys of
`m.Entries()`; every key of `m.Keys()` has a live entry; and an entry `(k, v)` is in
`m.Entries()` exactly when `k` is in `m.Keys()` and the map holds `v` under `k`.  When
every key is a bare tag `T[K]()`, as `Def` and `DefSym` produce them, these lookups are
`LoadSym(m, k)`, which then returns `found = true`, resp. `(v, true)`, without fault. -/
theorem snapshots_agree [Inhabited V] (m : Map V) :
    m.Keys.length = m.Len ∧ m.Entries.length = m.Len ∧ m.Keys.Nodup ∧
    List.Perm (m.Entries.map Entry.k) m.Keys ∧
    (∀ k ∈ m.Keys, (m.index k).2 = true) ∧
    (∀ e : Entry V, e ∈ m.Entries ↔ (e.k ∈ m.Keys ∧ m.index e.k = (e.v, true))) ∧
    ((∀ k ∈ m.Keys, ∃ K, k = T K) →
      (∀ k ∈ m.Keys, ∃ v, LoadSym m k = .ok (v, true)) ∧
      (∀ e : Entry V, e ∈ m.Entries ↔ (e.k ∈ m.Keys ∧ LoadSym m e.k = .ok (e.v, true)))) := by
  have hload : ∀ k, (∃ K, k = T K) → LoadSym m k = .ok (m.index k) := by
    rintro k ⟨K, rfl⟩
    rfl
  refine ⟨(len_eq_keys_length m).symm, ?_, keys_nodup m, ?_, ?_, mem_entries_iff m, ?_⟩
  · cases m with
    | mk d =>
      cases d with
      | none => rfl
      | some g => simp [Map.Entries, Map.Len]
  · cases m with
    | mk d =>
      cases d with
      | none => exact List.Perm.refl _
      | some g =>
        have : (Map.mk (some g)).Entries.map Entry.k = (Map.mk (some g)).Keys := by
          simp [Map.Entries, Map.Keys, AList.keys, List.keys, List.map_map, Function.comp]
        rw [this]
  · intro k hk
    exact (index_found_iff m k).mpr hk
  · intro hbare
    constructor
    · intro k hk
      refine ⟨(m.index k).1, ?_⟩
      rw [hload k (hbare k hk)]
      have := (index_found_iff m k).mpr hk
      rw [← this]
    · intro e
      rw [mem_entries_iff]
      constructor
      · rintro ⟨hk, hv⟩
        exact ⟨hk, by rw [hload e.k (hbare e.k hk), hv]⟩
      · rintro ⟨hk, hv⟩
        rw [hload e.k (hbare e.k hk)] at hv
        exact ⟨hk, Except.ok.inj hv⟩

end Snapshots

/-! ## Frame and key normalisation -/

section Frame
variable {V : Type}

theorem keys_store_subset (es : List (Entry V)) (g : GoMap V) (k : Sym)
    (hk : k ∈ (es.foldl (fun acc e => acc.insert e.k e.v) g).keys) :
    k ∈ g.keys ∨ ∃ e ∈ es, e.k = k := by
  induction es generalizing g with
  | nil => exact Or.inl hk
  | cons e rest ih =>
    rcases ih (g.insert e.k e.v) hk with h | ⟨e1, he1, hk1⟩
    · rw [← AList.mem_keys, AList.mem_insert] at h
      rcases h with h | h
      · exact Or.inr ⟨e, List.mem_cons_self _ _, h.symm⟩
      · exact Or.inl (AList.mem_keys.mp h)
    · exact Or.inr ⟨e1, List.mem_cons_of_mem _ he1, hk1⟩

theorem keys_delete_subset (ks : List Sym) (m m' : Map V) (h : m.Delete ks = .ok m')
    (k : Sym) (hk : k ∈ m'.Keys) : k ∈ m.Keys := by
  induction ks generalizing m with
  | nil =>
    cases h
    exact hk
  | cons j rest ih =>
    unfold Map.Delete at h
    rw [List.foldlM_cons] at h
    cases hj : j.enum with
    | error f => rw [hj] at h; cases h
    | ok t =>
      rw [hj] at h
      have := ih (m.remove t) h
      rw [keys_remove] at this
      exact (List.mem_filter.mp this).1

theorem bare_of_defSym (s : Sym) (v : V) (e : Entry V) (h : DefSym s v = .ok e) :
    ∃ K, e.k = T K := by
  cases s with
  | nil => cases h
  | ofEnum t => cases h; exact ⟨t, rfl⟩
  | ofWrapped t w => cases h; exact ⟨t, rfl⟩

theorem key_mem_of_mem_entries (m : Map V) (e : Entry V) (he : e ∈ m.Entries) :
    e.k ∈ m.Keys := by
  cases m with
  | mk d =>
    cases d with
    | none => simp [Map.Entries] at he
    | some g =>
      simp only [Map.Entries, List.mem_map] at he
      obtain ⟨kv, hkv, rfl⟩ := he
      exact List.mem_map_of_mem Sigma.fst hkv

theorem bare_of_store (m : Map V) (es : List (Entry V)) (m' : Map V)
    (hm : ∀ k ∈ m.Keys, ∃ K, k = T K) (hes : ∀ e ∈ es, ∃ K, e.k = T K)
    (hst : m.Store es = .ok m') : ∀ k ∈ m'.Keys, ∃ K, k = T K := by
  intro k hk
  cases m with
  | mk d =>
    cases d with
    | none =>
      cases es with
      | nil => cases hst; simp [Map.Keys] at hk
      | cons e rest => simp [Map.Store, List.foldlM, Map.assign, bind, Except.bind] at hst
    | some g =>
      rw [store_some] at hst
      cases hst
      rcases keys_store_subset es g k hk with h | ⟨e, he, rfl⟩
      · exact hm k h
      · exact hes e he

theorem reachable_bare {m : Map V} (h : Reachable m) : ∀ k ∈ m.Keys, ∃ K, k = T K :=
  @Reachable.rec V (fun e _ => ∃ K, e.k = T K) (fun m _ => ∀ k ∈ m.Keys, ∃ K, k = T K)
    (fun K _ => ⟨K, rfl⟩)
    (fun s v e h => bare_of_defSym s v e h)
    (fun m e _ he ih => ih e.k (key_mem_of_mem_entries m e he))
    (fun es m _ hnew ih =>
      bare_of_store ⟨some ∅⟩ es m (fun k hk => by simp [Map.Keys] at hk) ih hnew)
    (fun m es m' _ _ hst ihm ihes => bare_of_store m es m' ihm ihes hst)
    (fun m ks m' _ hdel ih k hk => ih k (keys_delete_subset ks m m' hdel k hk))
    m h


theorem index_remove_ne [Inhabited V] (m : Map V) (j k : Sym) (h : k ≠ j) :
    (m.remove j).index k = m.index k := by
  cases m with
  | mk d =>
    cases d with
    | none => rfl
    | some g => simp only [Map.remove, index_some, AList.lookup_erase_ne h]

/-- C19: `Store` and `Delete` touch only the tags they name.  For every container `m`,
type `K`, value `v` and every valid Sym `s` whose tag differs from `T[K]()`:
`m.Delete(T[K]())` returns without fault and `LoadSym(m, s)` returns the same result
after it as before; and so it does after `m.Store(Def[K](v))`, which returns without
fault on a container built by `NewMap`. -/
theorem store_delete_frame [Inhabited V] (m : Map V) (K : GoType) (v : V) (s : Sym)
    (hs : s ≠ Sym.nil) (hne : s.tag ≠ T K) :
    (m.Built → ∃ m', m.Store [Def K v] = .ok m' ∧ LoadSym m' s = LoadSym m s) ∧
    (∃ m', m.Delete [T K] = .ok m' ∧ LoadSym m' s = LoadSym m s) := by
  constructor
  · intro hm
    obtain ⟨g, rfl⟩ := (built_iff m).mp hm
    refine ⟨_, store_some g [Def K v], ?_⟩
    simp only [LoadSym, enum_eq_tag s hs, bind, Except.bind, pure, Except.pure, List.foldl,
      index_some, Def]
    rw [AList.lookup_insert_ne]
    exact hne
  · refine ⟨m.remove (T K), rfl, ?_⟩
    simp only [LoadSym, enum_eq_tag s hs, bind, Except.bind, pure, Except.pure]
    rw [index_remove_ne m (T K) s.tag hne]

/-- The instance of C19 at `colors`, key type int and a wrapped float64: the entry of
float64 is found before and after storing or deleting the entry of int. -/
theorem store_delete_frame_witness :
    Wrap GoType.float64 (Val.float 0) ≠ Sym.nil ∧
    (Wrap GoType.float64 (Val.float 0)).tag ≠ T GoType.int ∧
    colors.Built ∧
    LoadSym colors (Wrap GoType.float64 (Val.float 0)) = .ok ("blue", true) ∧
    (∃ m', colors.Store [Def GoType.int "green"] = .ok m' ∧
      LoadSym m' (Wrap GoType.float64 (Val.float 0)) =
        LoadSym colors (Wrap GoType.float64 (Val.float 0))) ∧
    (∃ m', colors.Delete [T GoType.int] = .ok m' ∧
      LoadSym m' (Wrap GoType.float64 (Val.float 0)) =
        LoadSym colors (Wrap GoType.float64 (Val.float 0))) :=
  ⟨by simp [Wrap], by simp [Wrap, Sym.tag, T], rfl, rfl,
    (store_delete_frame colors GoType.int "green" (Wrap GoType.float64 (Val.float 0))
      (by simp [Wrap]) (by simp [Wrap, Sym.tag, T])).1 rfl,
    (store_delete_frame colors GoType.int "green" (Wrap GoType.float64 (Val.float 0))
      (by simp [Wrap]) (by simp [Wrap, Sym.tag, T])).2⟩

/-- C20: in every container reachable from `NewMap` by `Store` and `Delete` calls whose
entries were built by `Def`, by `DefSym` with a valid Sym, or taken from `Entries()` of
such a container, every stored key is a bare tag `T[J]()`: no element of `Keys()` and no
key of `Entries()` is the nil Sym or a wrapped value.  In particular
`DefSym(Wrap[K](x), v)` builds the same entry as `Def[K](v)` for every payload `x`, and
so does `DefSym(T[K](), v)`. -/
theorem keys_normalised (m : Map V) (h : Reachable m) (K : GoType) (x : Val) (v : V) :
    (∀ k ∈ m.Keys, ∃ J, k = T J) ∧
    (∀ k ∈ m.Keys, k ≠ Sym.nil ∧ ∀ A w, k ≠ Wrap A w) ∧
    (∀ e ∈ m.Entries, ∃ J, e.k = T J) ∧
    DefSym (Wrap K x) v = .ok (Def K v) ∧
    DefSym (T K) v = .ok (Def K v) := by
  refine ⟨reachable_bare h, ?_, ?_, rfl, rfl⟩
  · intro k hk
    obtain ⟨J, rfl⟩ := reachable_bare h k hk
    exact ⟨by simp [T], by intro A w; simp [T, Wrap]⟩
  · intro e he
    exact reachable_bare h e.k (key_mem_of_mem_entries m e he)

/-- The instance of C20 at `colors`, reached by `NewMap(Def[int]("red"))` and a `Store`
of `DefSym(Wrap(float64), "blue")`: its keys are the bare tags of int and float64. -/
theorem keys_normalised_witness :
    Reachable colors ∧
    colors.Keys = [T GoType.float64, T GoType.int] ∧
    (∀ k ∈ colors.Keys, ∃ J, k = T J) := by
  have h0 : Reachable (Map.mk (some ((∅ : GoMap String).insert (T GoType.int) "red"))) :=
    Reachable.newMap [Def GoType.int "red"] _
      (fun e he => by
        rw [List.mem_singleton] at he
        subst he
        exact ApiEntry.ofDef _ _) rfl
  have h1 : Reachable colors :=
    Reachable.store _ [Def GoType.float64 "blue"] colors h0
      (fun e he => by
        rw [List.mem_singleton] at he
        subst he
        exact ApiEntry.ofDefSym (Wrap GoType.float64 (Val.float 0)) "blue" _ rfl) rfl
  exact ⟨h1, rfl, (keys_normalised colors h1 GoType.int Val.nil "red").1⟩

end Frame

/-- `TestMapExtra` and `ExampleLoadSym` as the instance of C13: every key of `extra` is
a bare tag, its snapshots have length 4, and `LoadSym` finds every key of `Keys()`. -/
theorem snapshots_agree_witness :
    (∀ k ∈ extra.Keys, ∃ K, k = T K) ∧
    extra.Keys.length = 4 ∧ extra.Entries.length = 4 ∧ extra.Len = 4 ∧
    (∀ k ∈ extra.Keys, ∃ v, LoadSym extra k = .ok (v, true)) := by
  have hbare : ∀ k ∈ extra.Keys, ∃ K, k = T K := by
    intro k hk
    have hkeys : extra.Keys =
        [T GoType.rune, T GoType.byte, T GoType.uint, T GoType.int] := rfl
    rw [hkeys] at hk
    simp only [List.mem_cons, List.mem_singleton, List.not_mem_nil, or_false] at hk
    rcases hk with rfl | rfl | rfl | rfl <;> exact ⟨_, rfl⟩
  exact ⟨hbare, rfl, rfl, rfl, ((snapshots_agree extra).2.2.2.2.2.2 hbare).1⟩

/-! ## Package conv -/

section IndexLemmas
variable {V : Type}

theorem index_insert [Inhabited V] (g : GoMap V) (k j : Sym) (v : V) :
    (Map.mk (some (g.insert k v))).index j =
      (if j = k then (v, true) else (Map.mk (some g)).index j) := by
  by_cases h : j = k
  · subst h
    simp [index_some, AList.lookup_insert]
  · simp [index_some, AList.lookup_insert_ne h, h]

theorem index_remove [Inhabited V] (m : Map V) (k j : Sym) :
    (m.remove k).index j = (if j = k then (default, false) else m.index j) := by
  by_cases h : j = k
  · subst h
    rw [if_pos rfl]
    cases m with
    | mk d =>
      cases d with
      | none => rfl
      | some g => simp [Map.remove, index_some, AList.lookup_erase]
  · rw [if_neg h, index_remove_ne m k j h]

end IndexLemmas

namespace conv

theorem store_one (g : GoMap Entry) (d : Entry) (hd : d ≠ Sym.nil) :
    Converter.Store ⟨⟨some g⟩⟩ [d] = .ok ⟨⟨some (g.insert d.tag d)⟩⟩ := by
  simp [Converter.Store, List.foldlM, DefSym, enum_eq_tag d hd, store_some, bind, Except.bind,
    pure, Except.pure]

theorem store_cons (cv : Converter) (d : Entry) (rest : List Entry) :
    Converter.Store cv (d :: rest) = (Converter.Store cv [d] >>= fun c => Converter.Store c rest) := by
  simp only [Converter.Store, List.foldlM_cons, List.foldlM_nil, bind_assoc, bind_pure]

theorem delete_one (cv : Converter) (key : Entry) (hk : key ≠ Sym.nil) :
    Converter.Delete cv [key] = .ok ⟨cv.defs.remove key.tag⟩ := by
  simp [Converter.Delete, List.foldlM, Map.Delete, enum_eq_tag key hk, bind, Except.bind,
    pure, Except.pure]

theorem delete_cons (cv : Converter) (key : Entry) (rest : List Entry) :
    Converter.Delete cv (key :: rest) =
      (Converter.Delete cv [key] >>= fun c => Converter.Delete c rest) := by
  simp only [Converter.Delete, List.foldlM_cons, List.foldlM_nil, bind_assoc, bind_pure]

theorem delete_nil_faults (cv : Converter) (rest : List Entry) :
    Converter.Delete cv (Sym.nil :: rest) = .error Fault.nilDeref := rfl

theorem wf_store (defs : List Entry) (cv cv' : Converter) (hcv : WellFormed cv)
    (hdefs : ∀ d ∈ defs, ∃ S D f, d = Def S D f) (hst : cv.Store defs = .ok cv') :
    WellFormed cv' := by
  induction defs generalizing cv with
  | nil =>
    cases hst
    exact hcv
  | cons d rest ih =>
    obtain ⟨S, D, f, rfl⟩ := hdefs _ (List.mem_cons_self _ _)
    obtain ⟨hb, hwf⟩ := hcv
    obtain ⟨m⟩ := cv
    obtain ⟨g, hg⟩ := (built_iff m).mp hb
    subst hg
    rw [store_cons, store_one g (Def S D f) (by simp [Def, Wrap])] at hst
    refine ih _ ?_ (fun d hd => hdefs d (List.mem_cons_of_mem _ hd)) hst
    refine ⟨rfl, ?_⟩
    intro k e hke
    rw [index_insert] at hke
    by_cases hk : k = (Def S D f).tag
    · rw [if_pos hk] at hke
      exact ⟨S, D, f, hk, (Prod.mk.inj hke).1.symm⟩
    · rw [if_neg hk] at hke
      exact hwf k e hke

theorem wf_delete (keys : List Entry) (cv cv' : Converter) (hcv : WellFormed cv)
    (hdel : cv.Delete keys = .ok cv') : WellFormed cv' := by
  induction keys generalizing cv with
  | nil =>
    cases hdel
    exact hcv
  | cons key rest ih =>
    by_cases hk : key = Sym.nil
    · subst hk
      rw [delete_nil_faults] at hdel
      cases hdel
    · rw [delete_cons, delete_one cv key hk] at hdel
      refine ih _ ?_ hdel
      refine ⟨remove_built _ hcv.1 _, ?_⟩
      intro k e hke
      rw [index_remove] at hke
      by_cases hkk : k = key.tag
      · rw [if_pos hkk] at hke
        cases hke
      · rw [if_neg hkk] at hke
        exact hcv.2 k e hke

theorem wf_of_fromDefs {cv : Converter} (h : FromDefs cv) : WellFormed cv := by
  induction h with
  | newConverter defs cv hdefs hnew =>
    refine wf_store defs ⟨⟨some ∅⟩⟩ cv ⟨rfl, ?_⟩ hdefs hnew
    intro k e hke
    simp [index_some] at hke
  | store cv defs cv' _ hdefs hst ih => exact wf_store defs cv cv' ih hdefs hst
  | delete cv keys cv' _ hdel ih => exact wf_delete keys cv cv' ih hdel

theorem lookup_eq (SRC DST : GoType) (cv : Converter) :
    Lookup SRC DST cv =
      (if (cv.defs.index (T (GoType.conv SRC DST))).2 = true then
        (MustUnwrap (GoType.conv SRC DST) (cv.defs.index (T (GoType.conv SRC DST))).1).map
          (fun f => (f, true))
       else .ok (Val.nil, false)) := by
  unfold Lookup
  simp only [LoadSym, T, Sym.enum, bind, Except.bind, pure, Except.pure]
  split
  · cases MustUnwrap (GoType.conv SRC DST)
      (cv.defs.index (Sym.ofEnum (GoType.conv SRC DST))).1 <;> rfl
  · rfl

theorem lookup_wf (SRC DST : GoType) (cv : Converter) (hcv : WellFormed cv) :
    (∃ f, cv.defs.index (T (GoType.conv SRC DST)) = (Def SRC DST f, true) ∧
      Lookup SRC DST cv = .ok (f, true)) ∨
    ((cv.defs.index (T (GoType.conv SRC DST))).2 = false ∧
      Lookup SRC DST cv = .ok (Val.nil, false)) := by
  rw [lookup_eq]
  rcases hidx : cv.defs.index (T (GoType.conv SRC DST)) with ⟨e, b⟩
  cases b with
  | false => exact Or.inr ⟨rfl, by simp⟩
  | true =>
    obtain ⟨S, D, f, hk, he⟩ := hcv.2 _ e hidx
    have hSD : GoType.conv S D = GoType.conv SRC DST := by
      simp only [T, Sym.ofEnum.injEq] at hk
      exact hk.symm
    refine Or.inl ⟨f, ?_, ?_⟩
    · rw [he, Def, hSD, Def]
    · simp [he, Def, hSD, MustUnwrap, Wrap, Sym.assertWrapped, Except.map]

theorem to_of_ne (fs : Funcs) (DST SRC : GoType) (h : SRC ≠ DST) (cv : Converter) (src : Val) :
    To fs DST SRC cv src =
      (Lookup SRC DST cv >>= fun found =>
        if found.2 = true then callFunc fs found.1 src
        else .ok (zero DST, notFound SRC DST src)) := by
  simp [To, Sym.goEq, T, h, notFound, bind, Except.bind, pure, Except.pure]

theorem to_self (fs : Funcs) (S : GoType) (cv : Converter) (src : Val) :
    To fs S S cv src = (typeAssert1 S (toAny S src)).map (fun dst => (dst, Val.nil)) := by
  simp only [To, Sym.goEq, T, decide_True, bind, Except.bind, pure, Except.pure, if_true]
  cases typeAssert1 S (toAny S src) <;> rfl

/-- C14 (the code breaks it): converting a type to itself.  For a concrete type `S`,
`conv.To[S](cv, src)` returns `(src, nil)` whatever `cv` holds, and so it does for an
interface type `S` and a non-nil `src` (whose dynamic type `d` implements `S`).  But
for an interface type `S` and the nil value of `S`, `any(src).(DST)` is an assertion on
a nil interface and `conv.To[S](cv, nil)` panics: so for `error` and for `any`. -/
theorem to_self_nil_interface_panics (fs : Funcs) (S d : GoType) (cv : Converter)
    (src p : Val) :
    (S.isInterface = false → To fs S S cv src = .ok (src, Val.nil)) ∧
    (S.isInterface = true → GoType.implements d S = true →
      To fs S S cv (Val.box d p) = .ok (Val.box d p, Val.nil)) ∧
    (S.isInterface = true → To fs S S cv Val.nil = .error Fault.interfaceConversion) ∧
    To fs GoType.error GoType.error cv Val.nil = .error Fault.interfaceConversion ∧
    To fs GoType.any GoType.any cv Val.nil = .error Fault.interfaceConversion ∧
    To fs GoType.string GoType.string cv (Val.str "one") = .ok (Val.str "one", Val.nil) := by
  have hnil : ∀ S0 : GoType, S0.isInterface = true →
      To fs S0 S0 cv Val.nil = .error Fault.interfaceConversion := by
    intro S0 h0
    simp [to_self, typeAssert1, typeAssert, toAny, h0, Except.map]
  refine ⟨?_, ?_, hnil S, hnil _ rfl, hnil _ rfl, ?_⟩
  · intro hS
    simp [to_self, typeAssert1, typeAssert, toAny, hS, GoType.satisfies, Except.map]
  · intro hS hd
    simp [to_self, typeAssert1, typeAssert, toAny, hS, hd, GoType.satisfies, Except.map]
  · simp [to_self, typeAssert1, typeAssert, toAny, GoType.isInterface, GoType.satisfies,
      Except.map]

/-- C15: for all distinct types `SRC` and `DST`, every converter `cv` built from
`conv.Def` entries and every `src`: `conv.Lookup[SRC, DST](cv)` returns without fault a
pair `(f, found)`; `found` is true exactly when a `conv.Def` of some function is stored
under the tag of `func(SRC) (DST, error)`, and that function is `f`.  When one is,
`conv.To[DST](cv, src)` is the call `f(src)`: it returns the value and the error `f`
returns (and a call of a nil `f` panics, as anywhere).  When none is, it returns without
fault the zero value of `DST` and the "Conversion not found" error, which is not nil. -/
theorem to_registered_or_not_found (fs : Funcs) (SRC DST : GoType) (hne : SRC ≠ DST)
    (cv : Converter) (hcv : FromDefs cv) (src : Val) :
    ∃ found : Val × Bool, Lookup SRC DST cv = .ok found ∧
      (found.2 = true ↔ ∃ f, LoadSym cv.defs (T (GoType.conv SRC DST)) = .ok (Def SRC DST f, true)) ∧
      (found.2 = true →
        LoadSym cv.defs (T (GoType.conv SRC DST)) = .ok (Def SRC DST found.1, true)) ∧
      To fs DST SRC cv src =
        (if found.2 = true then callFunc fs found.1 src
         else .ok (zero DST, notFound SRC DST src)) ∧
      (∀ id, found = (Val.ref id, true) → To fs DST SRC cv src = fs id src) ∧
      notFound SRC DST src ≠ Val.nil := by
  have hload : ∀ K, LoadSym cv.defs (T K) = .ok (cv.defs.index (T K)) := fun _ => rfl
  rcases lookup_wf SRC DST cv (wf_of_fromDefs hcv) with ⟨f, hidx, hl⟩ | ⟨hidx, hl⟩
  · refine ⟨(f, true), hl, ?_, ?_, ?_, ?_, ?_⟩
    · simp only [true_iff]
      exact ⟨f, by rw [hload, hidx]⟩
    · intro _
      rw [hload, hidx]
    · rw [to_of_ne fs DST SRC hne, hl]
      rfl
    · intro id hid
      rw [to_of_ne fs DST SRC hne, hl]
      cases hid
      rfl
    · simp [notFound, Errorf]
  · refine ⟨(Val.nil, false), hl, ?_, ?_, ?_, ?_, ?_⟩
    · simp only [Bool.false_eq_true, false_iff, not_exists]
      intro f hf
      rw [hload] at hf
      have := Except.ok.inj hf
      rw [this] at hidx
      cases hidx
    · intro h
      cases h
    · rw [to_of_ne fs DST SRC hne, hl]
      rfl
    · intro id hid
      cases hid
    · simp [notFound, Errorf]

/-- `ExampleTo_failure`, `ExampleConverter_Delete` and a missing conversion as the
instance of C15: with `i2r` registered for int to rune, `To[rune](cv, 10)` returns the
error "oops" of `i2r`, `To[rune](cv, 7)` the rune of 7 and a nil error, and
`To[string](cv, 1)` the empty string and the "Conversion not found" error. -/
theorem to_registered_or_not_found_witness :
    GoType.int ≠ GoType.rune ∧ FromDefs digits ∧
    NewConverter [Def GoType.int GoType.rune (Val.ref 0)] = .ok digits ∧
    To exampleFuncs GoType.rune GoType.int digits (Val.int 10) =
      .ok (Val.int 32, Errorf "oops" []) ∧
    To exampleFuncs GoType.rune GoType.int digits (Val.int 7) = .ok (Val.int 55, Val.nil) ∧
    To exampleFuncs GoType.string GoType.int digits (Val.int 1) =
      .ok (Val.str "", notFound GoType.int GoType.string (Val.int 1)) ∧
    (bits.Delete [Def GoType.bool GoType.int Val.nil] >>= fun cv =>
      To exampleFuncs GoType.int GoType.bool cv (Val.bool true)) =
      .ok (Val.int 0, notFound GoType.bool GoType.int (Val.bool true)) ∧
    (∃ found : Val × Bool, Lookup GoType.int GoType.rune digits = .ok found ∧
      To exampleFuncs GoType.rune GoType.int digits (Val.int 10) =
        (if found.2 = true then callFunc exampleFuncs found.1 (Val.int 10)
         else .ok (zero GoType.rune, notFound GoType.int GoType.rune (Val.int 10)))) := by
  have hne : GoType.int ≠ GoType.rune := by decide
  have hd : FromDefs digits :=
    FromDefs.newConverter [Def GoType.int GoType.rune (Val.ref 0)] digits
      (fun d hd => by
        rw [List.mem_singleton] at hd
        exact ⟨_, _, _, hd⟩) rfl
  refine ⟨hne, hd, rfl, rfl, rfl, rfl, rfl, ?_⟩
  obtain ⟨found, h1, _, _, h2, _⟩ :=
    to_registered_or_not_found exampleFuncs GoType.int GoType.rune hne digits hd (Val.int 10)
  exact ⟨found, h1, h2⟩

theorem conv_tag_ne (SRC DST S D : GoType) (h : ¬ (S = SRC ∧ D = DST)) :
    T (GoType.conv S D) ≠ T (GoType.conv SRC DST) := by
  intro heq
  simp only [T, Sym.ofEnum.injEq, GoType.conv, GoType.func.injEq, GoType.tcons.injEq,
    true_and, and_true] at heq
  exact h heq

/-- C16: the registry is keyed by the exact function signature.  For every converter
`cv` whose map is allocated (built by `NewConverter`), all types and every function
value `f`: `cv.Store(conv.Def(f))` with `f` a `func(SRC) (DST, error)` returns without
fault, and afterwards `conv.Lookup[SRC, DST](cv)` is `(f, true)`, whatever was registered
for the pair before, while for every other pair `Lookup` returns what it did before.
And for every function value `g` of that type, the nil function included,
`cv.Delete(conv.Def[SRC, DST](g))` returns without fault, and afterwards
`conv.Lookup[SRC, DST](cv)` is `(nil, false)` and `Lookup` for every other pair is
unchanged. -/
theorem registry_keyed_by_signature (cv : Converter) (hb : cv.defs.Built)
    (SRC DST S D : GoType) (f g : Val) (hother : ¬ (S = SRC ∧ D = DST)) :
    (∃ cv', cv.Store [Def SRC DST f] = .ok cv' ∧
      Lookup SRC DST cv' = .ok (f, true) ∧ Lookup S D cv' = Lookup S D cv) ∧
    (∃ cv', cv.Delete [Def SRC DST g] = .ok cv' ∧
      Lookup SRC DST cv' = .ok (Val.nil, false) ∧ Lookup S D cv' = Lookup S D cv) ∧
    (∃ cv', cv.Delete [Def SRC DST Val.nil] = .ok cv' ∧
      Lookup SRC DST cv' = .ok (Val.nil, false)) := by
  have hdel : ∀ g0 : Val, ∃ cv', cv.Delete [Def SRC DST g0] = .ok cv' ∧
      Lookup SRC DST cv' = .ok (Val.nil, false) ∧ Lookup S D cv' = Lookup S D cv := by
    intro g0
    refine ⟨_, delete_one cv (Def SRC DST g0) (by simp [Def, Wrap]), ?_, ?_⟩
    · rw [lookup_eq, index_remove]
      simp [Def, Wrap, Sym.tag, T]
    · have hidx : (cv.defs.remove (Def SRC DST g0).tag).index (T (GoType.conv S D)) =
          cv.defs.index (T (GoType.conv S D)) := by
        rw [index_remove]
        exact if_neg (conv_tag_ne SRC DST S D hother)
      rw [lookup_eq, lookup_eq, hidx]
  refine ⟨?_, hdel g, ?_⟩
  · obtain ⟨m⟩ := cv
    obtain ⟨g1, hg⟩ := (built_iff m).mp hb
    subst hg
    refine ⟨_, store_one g1 (Def SRC DST f) (by simp [Def, Wrap]), ?_, ?_⟩
    · rw [lookup_eq, index_insert]
      simp [Def, Wrap, Sym.tag, T, MustUnwrap, Sym.assertWrapped, Except.map]
    · have hidx : (Map.mk (some (g1.insert (Def SRC DST f).tag (Def SRC DST f)))).index
          (T (GoType.conv S D)) = (Map.mk (some g1)).index (T (GoType.conv S D)) := by
        rw [index_insert]
        exact if_neg (conv_tag_ne SRC DST S D hother)
      rw [lookup_eq, lookup_eq, hidx]
  · obtain ⟨cv', h1, h2, _⟩ := hdel Val.nil
    exact ⟨cv', h1, h2⟩

/-- `ExampleConverter_Delete` as the instance of C16 at `bits`: the converter is built
by `NewConverter`, `Lookup[bool, int]` finds `bit2n`, storing `i2r` for int to rune
leaves that so, and deleting `conv.Def[bool, int](nil)` removes it. -/
theorem registry_keyed_by_signature_witness :
    bits.defs.Built ∧ ¬ (GoType.bool = GoType.int ∧ GoType.int = GoType.rune) ∧
    NewConverter [Def GoType.bool GoType.int (Val.ref 1)] = .ok bits ∧
    Lookup GoType.bool GoType.int bits = .ok (Val.ref 1, true) ∧
    (∃ cv', bits.Store [Def GoType.int GoType.rune (Val.ref 0)] = .ok cv' ∧
      Lookup GoType.int GoType.rune cv' = .ok (Val.ref 0, true) ∧
      Lookup GoType.bool GoType.int cv' = Lookup GoType.bool GoType.int bits) ∧
    (bits.Delete [Def GoType.bool GoType.int Val.nil]).map (Lookup GoType.bool GoType.int) =
      .ok (.ok (Val.nil, false)) :=
  ⟨rfl, by decide, rfl, rfl,
    (registry_keyed_by_signature bits rfl GoType.int GoType.rune GoType.bool GoType.int
      (Val.ref 0) Val.nil (by decide)).1, rfl⟩

end conv

/-! ## The calculator example -/

namespace calculator

theorem enter_spec (c : Calc) (a b x y : Edge) (h : InState c a b) :
    ∃ st, c.enter x y = .ok { c with state := st } ∧ InState { c with state := st } x y := by
  obtain ⟨hb, hC, hEq, _, _⟩ := h
  obtain ⟨st0, acc0, res0, op0, out0⟩ := c
  obtain ⟨g, hg⟩ := (built_iff st0).mp hb
  subst hg
  refine ⟨⟨some ((g.insert (T keyOp) (some x)).insert (T keyNum) (some y))⟩, ?_, ?_⟩
  · simp only [Calc.enter, store_some, bind, Except.bind, pure, Except.pure]
    rfl
  · refine ⟨rfl, ?_, ?_, ?_, ?_⟩
    · show (Map.mk (some ((g.insert (T keyOp) (some x)).insert (T keyNum) (some y)))).index
        (T keyC) = _
      rw [index_insert, if_neg (by decide), index_insert, if_neg (by decide)]
      exact hC
    · show (Map.mk (some ((g.insert (T keyOp) (some x)).insert (T keyNum) (some y)))).index
        (T keyEq) = _
      rw [index_insert, if_neg (by decide), index_insert, if_neg (by decide)]
      exact hEq
    · show (Map.mk (some ((g.insert (T keyOp) (some x)).insert (T keyNum) (some y)))).index
        (T keyOp) = _
      rw [index_insert, if_neg (by decide), index_insert, if_pos rfl]
    · show (Map.mk (some ((g.insert (T keyOp) (some x)).insert (T keyNum) (some y)))).index
        (T keyNum) = _
      rw [index_insert, if_pos rfl]

theorem newCalculator_spec :
    ∃ c, newCalculator = .ok c ∧ InState c .eval .beginAcc ∧ c.acc = 0 ∧ c.res = 0 ∧
      c.op = Op.add.toVal ∧ c.out = [] :=
  ⟨_, rfl, ⟨rfl, rfl, rfl, rfl, rfl⟩, rfl, rfl, rfl, rfl⟩

theorem parse_digit (d : Nat) (hd : d < 10) :
    parseCalculatorKey (digitKey d) = Wrap keyNum (Val.int d) := by
  interval_cases d <;> rfl

theorem parse_op (o : Op) : parseCalculatorKey (opKey o) = Wrap keyOp o.toVal := by
  cases o <;> rfl

theorem step_digit (c : Calc) (a b : Edge) (h : InState c a b) (d : Nat) (hd : d < 10) :
    step c (digitKey d) = b.run c (Wrap keyNum (Val.int d)) := by
  have hidx : c.state.index (Sym.ofEnum keyNum) = (some b, true) := h.2.2.2.2
  simp only [step, parse_digit d hd, LoadSym, Wrap, Sym.enum, bind, Except.bind, pure,
    Except.pure, hidx]

theorem step_op (c : Calc) (a b : Edge) (h : InState c a b) (o : Op) :
    step c (opKey o) = a.run c (Wrap keyOp o.toVal) := by
  have hidx : c.state.index (Sym.ofEnum keyOp) = (some a, true) := h.2.2.2.1
  simp only [step, parse_op o, LoadSym, Wrap, Sym.enum, bind, Except.bind, pure,
    Except.pure, hidx]

theorem step_eq (c : Calc) (a b : Edge) (h : InState c a b) :
    step c '=' = Edge.eq.run c (Wrap keyEq Val.unit) := by
  have hidx : c.state.index (Sym.ofEnum keyEq) = (some Edge.eq, true) := h.2.2.1
  have hp : parseCalculatorKey '=' = Wrap keyEq Val.unit := rfl
  simp only [step, hp, LoadSym, Wrap, Sym.enum, bind, Except.bind, pure, Except.pure, hidx]

theorem wrap_of_range (x : Int) (h1 : -2 ^ 63 ≤ x) (h2 : x < 2 ^ 63) : wrap x = x := by
  unfold wrap
  norm_num at h1 h2 ⊢
  omega

theorem inState_congr (c c' : Calc) (a b : Edge) (hs : c'.state = c.state)
    (h : InState c a b) : InState c' a b := by
  unfold InState at h ⊢
  rw [hs]
  exact h

theorem acc_spec (c : Calc) (a b : Edge) (h : InState c a b) (d : Nat) :
    ∃ st, acc c (Wrap keyNum (Val.int d)) =
        .ok { c with acc := wrap (wrap (c.acc * 10) + d), state := st } ∧
      InState { c with acc := wrap (wrap (c.acc * 10) + d), state := st } .eval .acc := by
  obtain ⟨st, h1, h2⟩ := enter_spec { c with acc := wrap (wrap (c.acc * 10) + d) } a b
    .eval .acc (inState_congr c _ a b rfl h)
  refine ⟨st, ?_, h2⟩
  simp only [acc, MustUnwrap, Wrap, Sym.assertWrapped, if_true, bind, Except.bind, intOf,
    Calc.enterAccumulate]
  exact h1

theorem beginAcc_zero (c : Calc) : beginAcc c (Wrap keyNum (Val.int 0)) = .ok c := by
  simp [beginAcc, MustUnwrap, Wrap, Sym.assertWrapped, bind, Except.bind, intOf, pure,
    Except.pure]

theorem beginAcc_nonzero (c : Calc) (a b : Edge) (h : InState c a b) (d : Nat)
    (hd0 : d ≠ 0) (hd : d < 10) :
    ∃ st, beginAcc c (Wrap keyNum (Val.int d)) = .ok { c with acc := d, state := st } ∧
      InState { c with acc := d, state := st } .eval .acc := by
  obtain ⟨st, h1, h2⟩ := acc_spec { c with acc := 0 } a b (inState_congr c _ a b rfl h) d
  have hw : wrap (wrap ((0 : Int) * 10) + d) = d := by
    have h0 : wrap ((0 : Int) * 10) = 0 := by decide
    rw [h0, wrap_of_range] <;> norm_num <;> omega
  simp only [hw] at h1 h2
  refine ⟨st, ?_, h2⟩
  have hne : ¬ ((d : Int) = 0) := by exact_mod_cast hd0
  simp only [beginAcc, MustUnwrap, Wrap, Sym.assertWrapped, if_true, bind, Except.bind, intOf,
    hne, if_false]
  exact h1

/-- The accumulator after the digits `ds` are entered over `x`, in machine arithmetic. -/
theorem run_digits (ds : List Nat) (hds : ∀ d ∈ ds, d < 10) (c : Calc)
    (h : InState c .eval .acc) :
    ∃ st, (ds.map digitKey).foldlM step c =
        .ok { c with acc := ds.foldl (fun (x : Int) (d : Nat) => wrap (wrap (x * 10) + (d : Int))) c.acc,
                     state := st } ∧
      InState { c with acc := ds.foldl (fun (x : Int) (d : Nat) => wrap (wrap (x * 10) + (d : Int))) c.acc,
                       state := st } .eval .acc := by
  induction ds generalizing c with
  | nil => exact ⟨c.state, rfl, h⟩
  | cons d rest ih =>
    obtain ⟨st1, h1, h2⟩ := acc_spec c .eval .acc h d
    obtain ⟨st2, h3, h4⟩ := ih (fun e he => hds e (List.mem_cons_of_mem _ he)) _ h2
    refine ⟨st2, ?_, h4⟩
    rw [List.map_cons, List.foldlM_cons,
      step_digit c .eval .acc h d (hds d (List.mem_cons_self _ _))]
    show (acc c (Wrap keyNum (Val.int d)) >>= _) = _
    rw [h1]
    exact h3

theorem foldl_exact_ge (ds : List Nat) (x : Int) (hx : 0 ≤ x) :
    x ≤ ds.foldl (fun (x : Int) (d : Nat) => 10 * x + (d : Int)) x := by
  induction ds generalizing x with
  | nil => exact le_refl x
  | cons d rest ih =>
    have h1 : x ≤ 10 * x + (d : Int) := by omega
    exact le_trans h1 (ih (10 * x + d) (by omega))

theorem foldl_wrap_eq (ds : List Nat) (x : Int) (hx : 0 ≤ x)
    (hlt : ds.foldl (fun (x : Int) (d : Nat) => 10 * x + (d : Int)) x < 2 ^ 63) :
    ds.foldl (fun (x : Int) (d : Nat) => wrap (wrap (x * 10) + (d : Int))) x =
      ds.foldl (fun (x : Int) (d : Nat) => 10 * x + (d : Int)) x := by
  induction ds generalizing x with
  | nil => rfl
  | cons d rest ih =>
    have hge := foldl_exact_ge rest (10 * x + d) (by omega)
    have hstep : 10 * x + (d : Int) < 2 ^ 63 := lt_of_le_of_lt hge hlt
    have h1 : wrap (x * 10) = x * 10 := by
      apply wrap_of_range <;> norm_num at hstep ⊢ <;> omega
    have h2 : wrap (x * 10 + (d : Int)) = 10 * x + d := by
      rw [wrap_of_range] <;> norm_num at hstep ⊢ <;> omega
    simp only [List.foldl_cons, h1, h2]
    exact ih (10 * x + d) (by omega) hlt

theorem number_nonneg (ds : List Nat) : 0 ≤ number ds :=
  foldl_exact_ge ds 0 (le_refl 0)

/-- Entering a numeral in the start state: the single digit 0 changes nothing, and a
numeral that begins with a non-zero digit leaves its number in the accumulator. -/
theorem run_numeral (ds : List Nat) (hds : Numeral ds) (hlt : number ds < 2 ^ 63)
    (c : Calc) (h : InState c .eval .beginAcc) :
    ∃ c', (ds.map digitKey).foldlM step c = .ok c' ∧
      c'.acc = (if ds = [0] then c.acc else number ds) ∧
      c'.res = c.res ∧ c'.op = c.op ∧ c'.out = c.out ∧ ∃ b, InState c' .eval b := by
  obtain ⟨hdig, hz | ⟨d, rest, hcons, hd0⟩⟩ := hds
  · subst hz
    refine ⟨c, ?_, by simp, rfl, rfl, rfl, .beginAcc, h⟩
    rw [List.map_cons, List.map_nil, List.foldlM_cons,
      step_digit c .eval .beginAcc h 0 (by decide)]
    show (beginAcc c (Wrap keyNum (Val.int 0)) >>= _) = _
    rw [beginAcc_zero]
    rfl
  · subst hcons
    have hd : d < 10 := hdig d (List.mem_cons_self _ _)
    obtain ⟨st1, h1, h2⟩ := beginAcc_nonzero c .eval .beginAcc h d hd0 hd
    obtain ⟨st2, h3, h4⟩ := run_digits rest (fun e he => hdig e (List.mem_cons_of_mem _ he)) _ h2
    have hnum : rest.foldl (fun (x : Int) (d : Nat) => wrap (wrap (x * 10) + (d : Int))) (d : Int) =
        number (d :: rest) := by
      have hn : number (d :: rest) = rest.foldl (fun (x : Int) (d : Nat) => 10 * x + (d : Int)) (d : Int) := by
        simp [number]
      rw [hn] at hlt ⊢
      exact foldl_wrap_eq rest d (by omega) hlt
    have hne : ¬ (d :: rest = [0]) := by
      intro heq
      cases heq
      exact hd0 rfl
    have hrun := h3
    have hfirst : (List.map digitKey (d :: rest)).foldlM step c =
        (List.map digitKey rest).foldlM step { c with acc := (d : Int), state := st1 } := by
      rw [List.map_cons, List.foldlM_cons, step_digit c .eval .beginAcc h d hd]
      show (beginAcc c (Wrap keyNum (Val.int d)) >>= _) = _
      rw [h1]
      rfl
    rw [← hfirst] at hrun
    exact ⟨_, hrun, by rw [if_neg hne]; exact hnum, rfl, rfl, rfl, .acc, h4⟩

theorem evaluate_spec (c : Calc) (o : Op) (ho : o ≠ .div) (hop : c.op = o.toVal) :
    c.evaluate = .ok (c.evaluated o, false) := by
  cases o <;> first
    | exact absurd rfl ho
    | simp [Calc.evaluate, Calc.evaluated, hop, Op.toVal, opOf, Op.run, Op.exact, bind,
        Except.bind, pure, Except.pure]

theorem step_op_spec (c : Calc) (b : Edge) (h : InState c .eval b) (o o' : Op)
    (ho : o ≠ .div) (hop : c.op = o.toVal) :
    ∃ c', step c (opKey o') = .ok c' ∧ c'.res = wrap (o.exact c.res c.acc) ∧
      c'.acc = c.acc ∧ c'.op = o'.toVal ∧
      c'.out = c.out ++ [Shown.value (wrap (o.exact c.res c.acc))] ∧
      InState c' .eval .beginAcc := by
  obtain ⟨st, h1, h2⟩ := enter_spec { c.evaluated o with op := o'.toVal } .eval b
    .eval .beginAcc (inState_congr c _ .eval b rfl h)
  have hrun : step c (opKey o') =
      .ok { ({ c.evaluated o with op := o'.toVal } : Calc) with state := st } := by
    rw [step_op c .eval b h o']
    simp only [Edge.run, evaluate_spec c o ho hop, bind, Except.bind, store, MustUnwrap, Wrap,
      Sym.assertWrapped, if_true, Calc.enterStart]
    exact h1
  exact ⟨_, hrun, rfl, rfl, rfl, rfl, h2⟩

theorem step_eq_spec (c : Calc) (a b : Edge) (h : InState c a b) (o : Op)
    (ho : o ≠ .div) (hop : c.op = o.toVal) :
    ∃ c', step c '=' = .ok c' ∧ c'.res = wrap (o.exact c.res c.acc) ∧
      c'.out = c.out ++ [Shown.value (wrap (o.exact c.res c.acc))] := by
  obtain ⟨st, h1, _⟩ := enter_spec (c.evaluated o) a b .store .resetAcc
    (inState_congr c _ a b rfl h)
  have hrun : step c '=' = .ok { c.evaluated o with state := st } := by
    rw [step_eq c a b h]
    simp only [Edge.run, evaluate_spec c o ho hop, bind, Except.bind, Calc.enterEvaluated]
    exact h1
  exact ⟨_, hrun, rfl, rfl⟩

/-- The calculator on "a op b =", for decimal numerals of machine range and `op` one of
`+`, `-`, `*`: the run never faults, the operator key displays `a`, and the final `=`
leaves and displays `a op b` (in machine arithmetic) when the numeral of `b` begins with
a non-zero digit, but `a op a` when `b` is the single digit 0. -/
theorem calculate_spec (da db : List Nat) (o : Op) (ho : o ≠ .div)
    (hda : Numeral da) (hdb : Numeral db)
    (ha : number da < 2 ^ 63) (hb : number db < 2 ^ 63) :
    ∃ c, calculate (keySequence da o db) = .ok c ∧
      c.res = wrap (o.exact (number da) (if db = [0] then number da else number db)) ∧
      c.out = [Shown.value (number da), Shown.value c.res] := by
  obtain ⟨c0, hnew, hs0, hacc0, hres0, hop0, hout0⟩ := newCalculator_spec
  obtain ⟨c1, hr1, hacc1, hres1, hop1, hout1, b1, hs1⟩ := run_numeral da hda ha c0 hs0
  have hacc1' : c1.acc = number da := by
    rw [hacc1]
    split
    · rename_i hz
      rw [hz, hacc0]
      rfl
    · rfl
  obtain ⟨c2, hr2, hres2, hacc2, hop2, hout2, hs2⟩ :=
    step_op_spec c1 b1 hs1 .add o (by decide) (by rw [hop1, hop0])
  have hres2' : c2.res = number da := by
    rw [hres2, hres1, hres0, hacc1']
    simp only [Op.exact, zero_add]
    exact wrap_of_range _ (le_trans (by norm_num) (number_nonneg da)) ha
  obtain ⟨c3, hr3, hacc3, hres3, hop3, hout3, b3, hs3⟩ := run_numeral db hdb hb c2 hs2
  obtain ⟨c4, hr4, hres4, hout4⟩ := step_eq_spec c3 .eval b3 hs3 o ho (by rw [hop3, hop2])
  refine ⟨c4, ?_, ?_, ?_⟩
  · simp only [calculate, keySequence, hnew, bind, Except.bind]
    show List.foldlM step c0
      (List.map digitKey da ++ [opKey o] ++ List.map digitKey db ++ ['=']) = _
    rw [List.foldlM_append, List.foldlM_append, List.foldlM_append, hr1]
    simp only [bind, Except.bind, List.foldlM_cons, List.foldlM_nil, hr2, hr3, hr4, pure,
      Except.pure]
  · rw [hres4, hres3, hres2', hacc3, hacc2, hacc1']
  · rw [hout4, hout3, hout2, hout1, hout0, hres1, hres0, hacc1', hres4, hres3, hres2', hacc3]
    simp only [Op.exact, zero_add, List.nil_append, List.cons_append]
    rw [wrap_of_range _ (le_trans (by norm_num) (number_nonneg da)) ha]

/-- C18 (the code breaks it): the key sequence "a op b =" on a fresh calculator.  With
a second operand that begins with a non-zero digit the result register ends as
`a op b`: 46 for "12+34=", -2 for "7-9=", 42 for "6*7=".  But when the second operand is
typed as the single key 0, `beginAcc` returns before it clears the accumulator, which
still holds the first operand, and the final `=` computes `a op a`: "5+0=" leaves 10
where `5 + 0` is 5, "5-0=" leaves 0 and "5*0=" leaves 25 (`calculate_spec` has the
general statement).  The run of `Example_d_calculator` prints the values its expected
output lists. -/
theorem calculator_zero_operand :
    keySequence [5] .add [0] = "5+0=" ∧
    (calculate "5+0=").map (fun c => (c.res, c.out)) = .ok (10, [.value 5, .value 10]) ∧
    (calculate "5-0=").map (fun c => (c.res, c.out)) = .ok (0, [.value 5, .value 0]) ∧
    (calculate "5*0=").map (fun c => (c.res, c.out)) = .ok (25, [.value 5, .value 25]) ∧
    (calculate "5+0").map (fun c => c.acc) = .ok 5 ∧
    (calculate "12+34=").map (fun c => c.res) = .ok 46 ∧
    (calculate "7-9=").map (fun c => c.res) = .ok (-2) ∧
    (calculate "6*7=").map (fun c => c.res) = .ok 42 ∧
    (calculate "0+5=").map (fun c => c.res) = .ok 5 ∧
    (calculate "1+2*3=-4=C/=-5C-56=7+8=9=").map (fun c => c.out) =
      .ok [.value 1, .value 3, .value 9, .value 5, .value 0, .message "DIVZERO!", .value 0,
        .value (-56), .value 7, .value 15, .value 9] :=
  ⟨by decide, rfl, rfl, rfl, rfl, rfl, rfl, rfl, rfl, rfl⟩

end calculator

/-! ## UnwrapAs on a bare tag -/

/-- C24: on a Sym that was not produced by `Wrap`, `UnwrapAs` exfiltrates the tag itself.
For every type `K`, `UnwrapAs[lift.Sym](T[K]())` returns without fault `(T[K](), true)`,
the tag as a value of `lift.Sym`, and `UnwrapAs[any](T[K]())` returns `found = true`
with that same tag as payload, an `any` of dynamic type `enum[K]`; so it is for
`TypeOf(x)`.  Whereas `Unwrap[U](T[K]())` returns `(zero value of U, false)` for every
`U`, `lift.Sym` and `any` included. -/
theorem unwrapAs_tag_exfiltrates (K U : GoType) (x : Val) :
    UnwrapAs GoType.Sym (T K) = .ok ((T K).toVal, true) ∧
    UnwrapAs GoType.any (T K) = .ok ((T K).toVal, true) ∧
    (T K).toVal = Val.box (GoType.enum K) Val.unit ∧
    UnwrapAs GoType.Sym (TypeOf K x) = .ok ((T K).toVal, true) ∧
    Unwrap U (T K) = (zero U, false) ∧
    Unwrap GoType.Sym (T K) = (Val.nil, false) ∧
    Unwrap GoType.any (T K) = (Val.nil, false) ∧
    UnwrapAs GoType.Sym Any = .ok (Any.toVal, true) := by
  refine ⟨?_, ?_, rfl, ?_, rfl, rfl, rfl, ?_⟩ <;>
    simp [UnwrapAs, T, TypeOf, Any, Sym.exfiltrate, toAny, typeAssert, Sym.toVal,
      GoType.isInterface, GoType.satisfies, GoType.implements, GoType.methodSet, bind,
      Except.bind, pure, Except.pure]

/-! ## Lookup on a registry of conv.Def entries -/

namespace conv

/-- C21: `conv.Lookup` never faults on a well-formed registry.  For every converter
reachable from `NewConverter` by `Store` and `Delete` calls whose entries were all built
by `conv.Def`, and all types `SRC` and `DST`: a value stored under the tag of
`func(SRC) (DST, error)` is a Sym wrapping a function `f` of exactly that type, on which
`MustUnwrap` returns `f`; so `Lookup[SRC, DST]` returns without fault, and for distinct
`SRC` and `DST` `conv.To` gets past its lookup to the call of the function found or to
the "Conversion not found" result.  (A bare tag stored by hand under its own key, which
is no `conv.Def` entry, does make `Lookup` panic.) -/
theorem lookup_never_faults (fs : Funcs) (cv : Converter) (hcv : FromDefs cv)
    (SRC DST : GoType) (src : Val) :
    (∀ e, LoadSym cv.defs (T (GoType.conv SRC DST)) = .ok (e, true) →
      ∃ f, e = Wrap (GoType.conv SRC DST) f ∧ MustUnwrap (GoType.conv SRC DST) e = .ok f) ∧
    faults (Lookup SRC DST cv) = false ∧
    (∃ found, Lookup SRC DST cv = .ok found ∧
      (SRC ≠ DST → To fs DST SRC cv src =
        (if found.2 = true then callFunc fs found.1 src
         else .ok (zero DST, notFound SRC DST src)))) ∧
    (Converter.Store ⟨⟨some ∅⟩⟩ [T (GoType.conv GoType.int GoType.string)] >>=
      Lookup GoType.int GoType.string) =
      .error (Fault.mustUnwrap (.enum (GoType.conv GoType.int GoType.string))
        (.enum (GoType.conv GoType.int GoType.string))) := by
  have hwf := wf_of_fromDefs hcv
  have hload : LoadSym cv.defs (T (GoType.conv SRC DST)) =
      .ok (cv.defs.index (T (GoType.conv SRC DST))) := rfl
  have hfound : ∃ found, Lookup SRC DST cv = .ok found := by
    rcases lookup_wf SRC DST cv hwf with ⟨f, _, hl⟩ | ⟨_, hl⟩
    · exact ⟨_, hl⟩
    · exact ⟨_, hl⟩
  refine ⟨?_, ?_, ?_, rfl⟩
  · intro e he
    rw [hload] at he
    obtain ⟨S, D, f, hk, hef⟩ := hwf.2 _ e (Except.ok.inj he)
    have hSD : GoType.conv S D = GoType.conv SRC DST := by
      simp only [T, Sym.ofEnum.injEq] at hk
      exact hk.symm
    refine ⟨f, by rw [hef, Def, hSD], ?_⟩
    simp [hef, Def, hSD, MustUnwrap, Wrap, Sym.assertWrapped]
  · obtain ⟨found, hl⟩ := hfound
    rw [hl]
    rfl
  · obtain ⟨found, hl⟩ := hfound
    refine ⟨found, hl, ?_⟩
    intro hne
    rw [to_of_ne fs DST SRC hne, hl]
    rfl

/-- The instance of C21 at `digits`, the converter of `ExampleTo_failure`: it is built
from a `conv.Def` entry, and `Lookup` returns on it, for the registered pair and for
another. -/
theorem lookup_never_faults_witness :
    FromDefs digits ∧
    Lookup GoType.int GoType.rune digits = .ok (Val.ref 0, true) ∧
    Lookup GoType.int GoType.string digits = .ok (Val.nil, false) ∧
    faults (Lookup GoType.bool GoType.int digits) = false := by
  have hd : FromDefs digits :=
    FromDefs.newConverter [Def GoType.int GoType.rune (Val.ref 0)] digits
      (fun d hd => by
        rw [List.mem_singleton] at hd
        exact ⟨_, _, _, hd⟩) rfl
  exact ⟨hd, rfl, rfl,
    (lookup_never_faults exampleFuncs digits hd GoType.bool GoType.int Val.nil).2.1⟩

end conv

/-! ## Entries round-trips through NewMap -/

section RoundTrip
variable {V : Type}

theorem index_newMap_of_perm [Inhabited V] (m : Map V) (es : List (Entry V))
    (hes : es.Perm m.Entries) (k : Sym) :
    (Map.mk (some (es.foldl (fun acc e => acc.insert e.k e.v) ∅))).index k = m.index k := by
  rw [index_some, lookup_foldl_insert]
  cases hfind : es.reverse.find? (fun e => decide (e.k = k)) with
  | some e =>
    have hmem : e ∈ m.Entries :=
      hes.subset (List.mem_reverse.mp (List.mem_of_find?_eq_some hfind))
    have hk : e.k = k := by simpa using List.find?_some hfind
    have := ((mem_entries_iff m e).mp hmem).2
    rw [hk] at this
    rw [this]
  | none =>
    have hnot : k ∉ m.Keys := by
      intro hk
      have hidx := (index_found_iff m k).mpr hk
      have hmem : (⟨k, (m.index k).1⟩ : Entry V) ∈ m.Entries :=
        (mem_entries_iff m ⟨k, (m.index k).1⟩).mpr ⟨hk, by rw [← hidx]⟩
      have hmem2 : (⟨k, (m.index k).1⟩ : Entry V) ∈ es.reverse :=
        List.mem_reverse.mpr (hes.symm.subset hmem)
      have := List.find?_eq_none.mp hfind _ hmem2
      simp at this
    rw [index_of_not_mem m k hnot]
    simp [AList.lookup_empty]

/-- C22: `Entries` round-trips through `NewMap`.  For every container `m` and every
order `es` in which `m.Entries()` may enumerate its entries (any permutation of them),
`NewMap(es...)` returns without fault a container with the same `Len` as `m`, holding
the same value under every key, so that `LoadSym` returns on it what it returns on `m`
for every valid Sym, and `Load[K]` for every type `K`. -/
theorem entries_round_trip [Inhabited V] (m : Map V) (es : List (Entry V))
    (hes : es.Perm m.Entries) :
    ∃ m', NewMap es = .ok m' ∧ m'.Len = m.Len ∧
      (∀ s : Sym, s ≠ Sym.nil → LoadSym m' s = LoadSym m s) ∧
      (∀ K : GoType, Load K m' = Load K m) ∧
      (∀ k : Sym, m'.index k = m.index k) ∧
      List.Perm m'.Keys m.Keys := by
  have hidx := index_newMap_of_perm m es hes
  have hkeys : List.Perm
      (Map.mk (some (es.foldl (fun acc e => acc.insert e.k e.v) (∅ : GoMap V)))).Keys
      m.Keys := by
    rw [List.perm_ext_iff_of_nodup (keys_nodup _) (keys_nodup m)]
    intro k
    rw [← index_found_iff, ← index_found_iff, hidx]
  refine ⟨_, store_some ∅ es, ?_, ?_, ?_, hidx, hkeys⟩
  · rw [len_eq_keys_length, len_eq_keys_length]
    exact hkeys.length_eq
  · intro s hs
    simp only [LoadSym, enum_eq_tag s hs, bind, Except.bind, pure, Except.pure, hidx]
  · intro K
    exact hidx _

/-- The instance of C22 at `colors`: its entries, stored in the reverse of the order
`Entries()` gives them, build a container of the same length and lookups. -/
theorem entries_round_trip_witness :
    colors.Entries = [Def GoType.float64 "blue", Def GoType.int "red"] ∧
    List.Perm [Def GoType.int "red", Def GoType.float64 "blue"] colors.Entries ∧
    (∃ m', NewMap [Def GoType.int "red", Def GoType.float64 "blue"] = .ok m' ∧
      m'.Len = colors.Len ∧
      (∀ s : Sym, s ≠ Sym.nil → LoadSym m' s = LoadSym colors s)) := by
  have hperm : List.Perm [Def GoType.int "red", Def GoType.float64 "blue"] colors.Entries :=
    List.Perm.swap _ _ _
  obtain ⟨m', h1, h2, h3, _⟩ :=
    entries_round_trip colors [Def GoType.int "red", Def GoType.float64 "blue"] hperm
  exact ⟨rfl, hperm, m', h1, h2, h3⟩

end RoundTrip

/-! ## The calculator never faults -/

namespace calculator

theorem parse_cases (r : Char) :
    parseCalculatorKey r = Wrap keyC Val.unit ∨ parseCalculatorKey r = Wrap keyEq Val.unit ∨
    (∃ o : Op, parseCalculatorKey r = Wrap keyOp o.toVal) ∨
    (∃ v, parseCalculatorKey r = Wrap keyNum v) := by
  unfold parseCalculatorKey
  split
  · exact Or.inl rfl
  split
  · exact Or.inr (Or.inl rfl)
  split
  · exact Or.inr (Or.inr (Or.inl ⟨.add, rfl⟩))
  split
  · exact Or.inr (Or.inr (Or.inl ⟨.sub, rfl⟩))
  split
  · exact Or.inr (Or.inr (Or.inl ⟨.mul, rfl⟩))
  split
  · exact Or.inr (Or.inr (Or.inl ⟨.div, rfl⟩))
  split
  · exact Or.inr (Or.inr (Or.inr ⟨_, rfl⟩))
  · exact Or.inl rfl

theorem step_of_parse (c : Calc) (r : Char) (K : GoType) (v : Val) (e : Edge)
    (hp : parseCalculatorKey r = Wrap K v) (hidx : c.state.index (T K) = (some e, true)) :
    step c r = e.run c (Wrap K v) := by
  have hidx2 : c.state.index (Sym.ofEnum K) = (some e, true) := hidx
  simp only [step, hp, LoadSym, Wrap, Sym.enum, bind, Except.bind, pure, Except.pure, hidx2]

/-- Source `calc.div` is guarded: a zero accumulator gives the error "DIVZERO!", and the
division is only run on a non-zero divisor, where it cannot panic. -/
theorem div_run (c : Calc) :
    Op.div.run c =
      .ok (if c.acc = 0 then (c, some "DIVZERO!")
           else ({ c with res := wrap (Int.tdiv c.res c.acc) }, none)) := by
  by_cases h : c.acc = 0
  · simp [Op.run, h]
  · simp [Op.run, quo, h, bind, Except.bind, pure, Except.pure]

theorem enter_ready (c : Calc) (a b x y : Edge) (h : InState c a b) (hxy : Allowed x y)
    (hop : ∃ o : Op, c.op = o.toVal) : ∃ c', c.enter x y = .ok c' ∧ Ready c' := by
  obtain ⟨st, h1, h2⟩ := enter_spec c a b x y h
  exact ⟨_, h1, x, y, h2, hxy, hop⟩

theorem evaluate_ok (c : Calc) (o : Op) (hop : c.op = o.toVal) :
    ∃ c1 err, c.evaluate = .ok (c1, err) ∧ c1.state = c.state ∧ c1.op = c.op := by
  by_cases ho : o = .div
  · subst ho
    by_cases h : c.acc = 0
    · have hev : c.evaluate =
          .ok ({ c with out := c.out ++ [Shown.message "DIVZERO!"] }, true) := by
        simp [Calc.evaluate, hop, Op.toVal, opOf, div_run, h, bind, Except.bind, pure, Except.pure]
      exact ⟨_, _, hev, rfl, rfl⟩
    · have hev : c.evaluate =
          .ok ({ c with res := wrap (Int.tdiv c.res c.acc)
                        out := c.out ++ [Shown.value (wrap (Int.tdiv c.res c.acc))] },
            false) := by
        simp [Calc.evaluate, hop, Op.toVal, opOf, div_run, h, bind, Except.bind, pure, Except.pure]
      exact ⟨_, _, hev, rfl, rfl⟩
  · exact ⟨_, _, evaluate_spec c o ho hop, rfl, rfl⟩

theorem store_ready (c : Calc) (a b : Edge) (h : InState c a b) (o : Op) :
    ∃ c', store c (Wrap keyOp o.toVal) = .ok c' ∧ Ready c' := by
  obtain ⟨c', h1, h2⟩ := enter_ready { c with op := o.toVal } a b .eval .beginAcc
    (inState_congr c _ a b rfl h) (Or.inl ⟨rfl, rfl⟩) ⟨o, rfl⟩
  refine ⟨c', ?_, h2⟩
  simp only [store, MustUnwrap, Wrap, Sym.assertWrapped, if_true, bind, Except.bind,
    Calc.enterStart]
  exact h1

theorem acc_ready (c : Calc) (a b : Edge) (h : InState c a b)
    (hop : ∃ o : Op, c.op = o.toVal) (v : Val) :
    ∃ c', acc c (Wrap keyNum v) = .ok c' ∧ Ready c' := by
  obtain ⟨c', h1, h2⟩ := enter_ready
    { c with acc := wrap (wrap (c.acc * 10) + intOf v) } a b .eval .acc
    (inState_congr c _ a b rfl h) (Or.inr (Or.inl ⟨rfl, rfl⟩)) hop
  refine ⟨c', ?_, h2⟩
  simp only [acc, MustUnwrap, Wrap, Sym.assertWrapped, if_true, bind, Except.bind,
    Calc.enterAccumulate]
  exact h1

theorem beginAcc_ready (c : Calc) (hr : Ready c) (v : Val) :
    ∃ c', beginAcc c (Wrap keyNum v) = .ok c' ∧ Ready c' := by
  obtain ⟨a, b, h, hab, hop⟩ := hr
  by_cases hz : intOf v = 0
  · refine ⟨c, ?_, a, b, h, hab, hop⟩
    simp [beginAcc, MustUnwrap, Wrap, Sym.assertWrapped, bind, Except.bind, hz, pure,
      Except.pure]
  · obtain ⟨c', h1, h2⟩ := acc_ready { c with acc := 0 } a b (inState_congr c _ a b rfl h)
      hop v
    refine ⟨c', ?_, h2⟩
    simp only [beginAcc, MustUnwrap, Wrap, Sym.assertWrapped, if_true, bind, Except.bind, hz,
      if_false]
    exact h1

theorem reset_ready (c : Calc) (hr : Ready c) : Ready c.reset := by
  obtain ⟨a, b, h, hab, _⟩ := hr
  exact ⟨a, b, inState_congr c _ a b rfl h, hab, .add, rfl⟩

theorem after_evaluate_ready (c : Calc) (hr : Ready c) :
    ∃ c1 err, c.evaluate = .ok (c1, err) ∧ Ready c1 := by
  obtain ⟨a, b, h, hab, o, hop⟩ := hr
  obtain ⟨c1, err, he, hs, hop1⟩ := evaluate_ok c o hop
  exact ⟨c1, err, he, a, b, inState_congr c c1 a b hs h, hab, o, by rw [hop1, hop]⟩

theorem plain_ready (c : Calc) (hr : Ready c) (e : Edge)
    (he : e = .clear ∨ e = .eq ∨ e = .nop) (sym : Sym) :
    ∃ c', e.run c sym = .ok c' ∧ Ready c' := by
  rcases he with rfl | rfl | rfl
  · obtain ⟨a, b, h, _, hop⟩ := reset_ready c hr
    exact enter_ready c.reset a b .eval .beginAcc h (Or.inl ⟨rfl, rfl⟩) hop
  · obtain ⟨c1, err, hev, a, b, h1, hab, hop1⟩ := after_evaluate_ready c hr
    cases err with
    | true =>
      obtain ⟨c', h2, h3⟩ := enter_ready c1 a b .nop .nop h1
        (Or.inr (Or.inr (Or.inr ⟨rfl, rfl⟩))) hop1
      refine ⟨c', ?_, h3⟩
      simp only [Edge.run, hev, bind, Except.bind, if_true, Calc.enterErr]
      exact h2
    | false =>
      obtain ⟨c', h2, h3⟩ := enter_ready c1 a b .store .resetAcc h1
        (Or.inr (Or.inr (Or.inl ⟨rfl, rfl⟩))) hop1
      refine ⟨c', ?_, h3⟩
      simp only [Edge.run, hev, bind, Except.bind, Bool.false_eq_true, if_false,
        Calc.enterEvaluated]
      exact h2
  · exact ⟨c, rfl, hr⟩

theorem op_ready (c : Calc) (hr : Ready c) (e : Edge) (he : e = .eval ∨ e = .store)
    (o : Op) : ∃ c', e.run c (Wrap keyOp o.toVal) = .ok c' ∧ Ready c' := by
  rcases he with rfl | rfl
  · obtain ⟨c1, err, hev, a, b, h1, hab, hop1⟩ := after_evaluate_ready c hr
    cases err with
    | true =>
      obtain ⟨c', h2, h3⟩ := enter_ready c1 a b .nop .nop h1
        (Or.inr (Or.inr (Or.inr ⟨rfl, rfl⟩))) hop1
      refine ⟨c', ?_, h3⟩
      simp only [Edge.run, hev, bind, Except.bind, if_true, Calc.enterErr]
      exact h2
    | false =>
      obtain ⟨c', h2, h3⟩ := store_ready c1 a b h1 o
      refine ⟨c', ?_, h3⟩
      simp only [Edge.run, hev, bind, Except.bind, Bool.false_eq_true, if_false]
      exact h2
  · obtain ⟨a, b, h, _, _⟩ := hr
    exact store_ready c a b h o

theorem num_ready (c : Calc) (hr : Ready c) (e : Edge)
    (he : e = .acc ∨ e = .beginAcc ∨ e = .resetAcc) (v : Val) :
    ∃ c', e.run c (Wrap keyNum v) = .ok c' ∧ Ready c' := by
  rcases he with rfl | rfl | rfl
  · obtain ⟨a, b, h, _, hop⟩ := hr
    exact acc_ready c a b h hop v
  · exact beginAcc_ready c hr v
  · exact beginAcc_ready c.reset (reset_ready c hr) v

/-- One key: from a ready calculator, `step` returns a ready calculator. -/
theorem step_ready (c : Calc) (hr : Ready c) (r : Char) :
    ∃ c', step c r = .ok c' ∧ Ready c' := by
  obtain ⟨a, b, h, hab, hop⟩ := id hr
  obtain ⟨_, hC, hEq, hOp, hNum⟩ := id h
  rcases parse_cases r with hp | hp | ⟨o, hp⟩ | ⟨v, hp⟩
  · rw [step_of_parse c r keyC Val.unit .clear hp hC]
    exact plain_ready c hr .clear (Or.inl rfl) _
  · rw [step_of_parse c r keyEq Val.unit .eq hp hEq]
    exact plain_ready c hr .eq (Or.inr (Or.inl rfl)) _
  · rw [step_of_parse c r keyOp o.toVal a hp hOp]
    rcases hab with ⟨ha, _⟩ | ⟨ha, _⟩ | ⟨ha, _⟩ | ⟨ha, _⟩
    · exact op_ready c hr a (Or.inl ha) o
    · exact op_ready c hr a (Or.inl ha) o
    · exact op_ready c hr a (Or.inr ha) o
    · exact plain_ready c hr a (Or.inr (Or.inr ha)) _
  · rw [step_of_parse c r keyNum v b hp hNum]
    rcases hab with ⟨_, hb⟩ | ⟨_, hb⟩ | ⟨_, hb⟩ | ⟨_, hb⟩
    · exact num_ready c hr b (Or.inr (Or.inl hb)) v
    · exact num_ready c hr b (Or.inl hb) v
    · exact num_ready c hr b (Or.inr (Or.inr hb)) v
    · exact plain_ready c hr b (Or.inr (Or.inr hb)) _

theorem run_ready (keys : List Char) (c : Calc) (hr : Ready c) :
    ∃ c', keys.foldlM step c = .ok c' ∧ Ready c' := by
  induction keys generalizing c with
  | nil => exact ⟨c, rfl, hr⟩
  | cons r rest ih =>
    obtain ⟨c1, h1, hr1⟩ := step_ready c hr r
    obtain ⟨c2, h2, hr2⟩ := ih c1 hr1
    refine ⟨c2, ?_, hr2⟩
    rw [List.foldlM_cons, h1]
    exact h2

theorem newCalculator_ready : ∃ c, newCalculator = .ok c ∧ Ready c := by
  obtain ⟨c, h1, h2, _, _, hop, _⟩ := newCalculator_spec
  exact ⟨c, h1, .eval, .beginAcc, h2, Or.inl ⟨rfl, rfl⟩, .add, hop⟩

theorem loadSym_wrap (c : Calc) (K : GoType) (v : Val) (e : Edge)
    (hidx : c.state.index (T K) = (some e, true)) :
    LoadSym c.state (Wrap K v) = .ok (some e, true) := by
  rw [← hidx]
  rfl

theorem ready_holds (c : Calc) (hr : Ready c) : HoldsEdges c := by
  obtain ⟨a, b, ⟨_, hC, hEq, hOp, hNum⟩, _, _⟩ := hr
  intro K hK
  simp only [List.mem_cons, List.mem_singleton, List.not_mem_nil, or_false] at hK
  rcases hK with rfl | rfl | rfl | rfl
  exacts [⟨_, hC⟩, ⟨_, hEq⟩, ⟨_, hOp⟩, ⟨_, hNum⟩]

/-- One key on a ready calculator: the key parses to one of the four tags, the state
holds an edge for it, an edge that unwraps is given a symbol of the type it unwraps,
and the edge returns a ready calculator. -/
theorem ready_dispatch (c : Calc) (hr : Ready c) (r : Char) :
    ∃ e c', (∃ K ∈ [keyC, keyEq, keyOp, keyNum], (parseCalculatorKey r).enum = .ok (T K)) ∧
      LoadSym c.state (parseCalculatorKey r) = .ok (some e, true) ∧
      (e.unwrapsOp = true → ∃ o : Op, parseCalculatorKey r = Wrap keyOp o.toVal) ∧
      (e.unwrapsNum = true → ∃ v, parseCalculatorKey r = Wrap keyNum v) ∧
      e.run c (parseCalculatorKey r) = .ok c' ∧ step c r = .ok c' ∧ Ready c' := by
  obtain ⟨c', hs, hr'⟩ := step_ready c hr r
  obtain ⟨a, b, h, hab, hop⟩ := id hr
  obtain ⟨_, hC, hEq, hOp, hNum⟩ := id h
  have ha : a.unwrapsNum = false := by
    rcases hab with ⟨rfl, _⟩ | ⟨rfl, _⟩ | ⟨rfl, _⟩ | ⟨rfl, _⟩ <;> rfl
  have hb : b.unwrapsOp = false := by
    rcases hab with ⟨_, rfl⟩ | ⟨_, rfl⟩ | ⟨_, rfl⟩ | ⟨_, rfl⟩ <;> rfl
  rcases parse_cases r with hp | hp | ⟨o, hp⟩ | ⟨v, hp⟩
  · refine ⟨.clear, c', ⟨keyC, by simp, by rw [hp]; rfl⟩, ?_, by simp [Edge.unwrapsOp],
      by simp [Edge.unwrapsNum], ?_, hs, hr'⟩
    · rw [hp]
      exact loadSym_wrap c _ _ _ hC
    · rw [hp, ← step_of_parse c r keyC Val.unit .clear hp hC]
      exact hs
  · refine ⟨.eq, c', ⟨keyEq, by simp, by rw [hp]; rfl⟩, ?_, by simp [Edge.unwrapsOp],
      by simp [Edge.unwrapsNum], ?_, hs, hr'⟩
    · rw [hp]
      exact loadSym_wrap c _ _ _ hEq
    · rw [hp, ← step_of_parse c r keyEq Val.unit .eq hp hEq]
      exact hs
  · refine ⟨a, c', ⟨keyOp, by simp, by rw [hp]; rfl⟩, ?_, fun _ => ⟨o, hp⟩,
      fun hn => ?_, ?_, hs, hr'⟩
    · rw [hp]
      exact loadSym_wrap c _ _ _ hOp
    · rw [ha] at hn
      exact absurd hn (by decide)
    · rw [hp, ← step_of_parse c r keyOp o.toVal a hp hOp]
      exact hs
  · refine ⟨b, c', ⟨keyNum, by simp, by rw [hp]; rfl⟩, ?_, fun hn => ?_,
      fun _ => ⟨v, hp⟩, ?_, hs, hr'⟩
    · rw [hp]
      exact loadSym_wrap c _ _ _ hNum
    · rw [hb] at hn
      exact absurd hn (by decide)
    · rw [hp, ← step_of_parse c r keyNum v b hp hNum]
      exact hs

theorem calculate_ready (keys : List Char) :
    ∃ c, calculate (String.mk keys) = .ok c ∧ Ready c := by
  obtain ⟨c0, h0, hr0⟩ := newCalculator_ready
  obtain ⟨c, h1, hr1⟩ := run_ready keys c0 hr0
  refine ⟨c, ?_, hr1⟩
  simp only [calculate, h0, bind, Except.bind]
  exact h1

theorem calculate_snoc (p : List Char) (r : Char) :
    calculate (String.mk (p ++ [r])) = (calculate (String.mk p) >>= fun c => step c r) := by
  obtain ⟨c0, h0, _⟩ := newCalculator_ready
  have e1 : (String.mk (p ++ [r])).toList = p ++ [r] := rfl
  have e2 : (String.mk p).toList = p := rfl
  simp only [calculate, e1, e2, h0, bind, Except.bind, List.foldlM_append]
  generalize List.foldlM step c0 p = x
  cases x with
  | error f => rfl
  | ok c =>
    simp only [List.foldlM, bind, Except.bind, pure, Except.pure]
    cases step c r <;> rfl

/-- C23: `calculate` never faults, and its dispatch is total.  For every input string
the run returns a calculator, whose state map holds a non-nil edge under each of the
four key tags.  At every step, that is for every split of the input into the keys
`p` already consumed, the next key `r` and the rest: the run over `p` returns a
calculator `c` whose state map holds a non-nil edge under each of `keyC`, `keyEq`,
`keyOp` and `keyNum`; `parseCalculatorKey r` has one of those four tags; `LoadSym`
finds a non-nil edge `e` for it; if `e` is an edge that calls `MustUnwrap[keyOp]`
the symbol wraps a `keyOp` (one of the four operators), and if it calls
`MustUnwrap[keyNum]` the symbol wraps a `keyNum`; and the call of `e` returns, giving
the calculator of the run over `p` and `r`.  Finally `div` returns on every calculator:
its division is never run on a zero divisor. -/
theorem calculate_never_faults (input : String) :
    (∃ c, calculate input = .ok c ∧ HoldsEdges c) ∧
    (∀ (p : List Char) (r : Char) (q : List Char), input.toList = p ++ r :: q →
      ∃ c e c', calculate (String.mk p) = .ok c ∧ HoldsEdges c ∧
        (∃ K ∈ [keyC, keyEq, keyOp, keyNum], (parseCalculatorKey r).enum = .ok (T K)) ∧
        LoadSym c.state (parseCalculatorKey r) = .ok (some e, true) ∧
        (e.unwrapsOp = true → ∃ o : Op, parseCalculatorKey r = Wrap keyOp o.toVal) ∧
        (e.unwrapsNum = true → ∃ v, parseCalculatorKey r = Wrap keyNum v) ∧
        e.run c (parseCalculatorKey r) = .ok c' ∧
        calculate (String.mk (p ++ [r])) = .ok c') ∧
    (∀ c : Calc, ∃ res, Op.div.run c = .ok res) := by
  refine ⟨?_, ?_, fun c => ⟨_, div_run c⟩⟩
  · obtain ⟨c, h, hr⟩ := calculate_ready input.toList
    exact ⟨c, h, ready_holds c hr⟩
  · intro p r q _
    obtain ⟨c, h, hr⟩ := calculate_ready p
    obtain ⟨e, c', h1, h2, h3, h4, h5, h6, _⟩ := ready_dispatch c hr r
    refine ⟨c, e, c', h, ready_holds c hr, h1, h2, h3, h4, h5, ?_⟩
    rw [calculate_snoc, h]
    exact h6

end calculator

end Lift
